import Mathlib

/-!
Verification of the Voxta voice-command classification core
(`python/ai_voice_processor.py`, class `EnhancedAIVoiceProcessor`).

The Python module is shallowly embedded below: every definition is a
direct translation of the corresponding Python function, working on
`List Char` for strings (ASCII semantics for the character classes used
by the module) and on `ℚ` for the floating-point confidence arithmetic
(the module only adds, multiplies, divides and compares small decimal
constants, so exact rational arithmetic models it faithfully).
-/

/-! ## Character classes (ASCII semantics of `str.lower`, `\s`, `\w`, `\d`) -/

/-- Whitespace characters recognised by Python `str.split`, `str.strip`
and the regex class `\s` (ASCII fragment). -/
def isWS (c : Char) : Bool :=
  c = ' ' ∨ c = '\t' ∨ c = '\n' ∨ c = '\r' ∨ c = '\x0b' ∨ c = '\x0c'

/-- ASCII upper-case letter test. -/
def isUpperA (c : Char) : Bool := 65 ≤ c.toNat ∧ c.toNat ≤ 90

/-- ASCII lower-casing of one character, modelling `str.lower`. -/
def lowerA (c : Char) : Char :=
  if isUpperA c then Char.ofNat (c.toNat + 32) else c

/-- Regex class `\d` (ASCII digits). -/
def isDigitA (c : Char) : Bool := 48 ≤ c.toNat ∧ c.toNat ≤ 57

/-- Regex class `\w` (ASCII fragment: letters, digits, underscore). -/
def isWordA (c : Char) : Bool :=
  isUpperA c ∨ (97 ≤ c.toNat ∧ c.toNat ≤ 122) ∨ isDigitA c ∨ c = '_'

/-- Characters kept by the preprocessing cleanup
`re.sub(r'[^\w\s$.]', ' ', text)`: word characters, whitespace,
dollar sign and dot. -/
def keptC (c : Char) : Bool := isWordA c ∨ isWS c ∨ c = '$' ∨ c = '.'

/-! ## Python string primitives -/

/-- `str.lower` on a character list (ASCII). -/
def lowerL (l : List Char) : List Char := l.map lowerA

/-- `str.strip`: drop leading and trailing whitespace. -/
def stripL (l : List Char) : List Char :=
  ((l.dropWhile isWS).reverse.dropWhile isWS).reverse

/-- Substring containment, modelling the Python expression `sub in s`. -/
def containsSub (s sub : List Char) : Bool :=
  (List.range (s.length + 1)).any (fun i => sub.isPrefixOf (s.drop i))

/-- Fuelled worker for `str.replace`: replaces non-overlapping occurrences
of `old` left to right.  Each step consumes at least one character of the
subject, so fuel `s.length` suffices.  (Python `replace` with an empty
`old` inserts `new` everywhere; that case never occurs here and the
worker leaves the subject unchanged for it.) -/
def replFuel : Nat → List Char → List Char → List Char → List Char
  | 0, s, _, _ => s
  | _ + 1, [], _, _ => []
  | fuel + 1, c :: cs, old, new =>
    if old ≠ [] ∧ old.isPrefixOf (c :: cs) then
      new ++ replFuel fuel (List.drop old.length (c :: cs)) old new
    else
      c :: replFuel fuel cs old new

/-- `str.replace old new` on character lists. -/
def pyReplace (s old new : List Char) : List Char := replFuel s.length s old new

/-- Worker for `str.split()` (no separator argument): splits on runs of
whitespace and drops empty pieces.  `acc` holds the current word reversed. -/
def splitWsAux : List Char → List Char → List (List Char)
  | [], acc => if acc = [] then [] else [acc.reverse]
  | c :: cs, acc =>
    if isWS c then
      if acc = [] then splitWsAux cs [] else acc.reverse :: splitWsAux cs []
    else
      splitWsAux cs (c :: acc)

/-- `str.split()` on character lists. -/
def splitWsL (l : List Char) : List (List Char) := splitWsAux l []

/-- `' '.join` on character-list words. -/
def joinWords : List (List Char) → List Char
  | [] => []
  | [w] => w
  | w :: x :: ws => w ++ ' ' :: joinWords (x :: ws)

/-- Worker for `re.sub(r'\s+', ' ', text)`: each maximal whitespace run
becomes a single space.  The flag records whether the previous character
belonged to a run already rewritten. -/
def subWsAux : Bool → List Char → List Char
  | _, [] => []
  | prevWS, c :: cs =>
    if isWS c then
      if prevWS then subWsAux true cs else ' ' :: subWsAux true cs
    else
      c :: subWsAux false cs

/-! ## `_preprocess_text` (the Normalizer) -/

/-- The `corrections` substitution table of `_preprocess_text`, in Python
dict insertion order (dict iteration preserves insertion order). -/
def correctionTable : List (List Char × List Char) :=
  [ ("dollar".data, "dollars".data),
    ("buck".data, "bucks".data),
    ("place a bit".data, "place a bid".data),
    ("bit".data, "bid".data),
    ("show me options".data, "show me auctions".data),
    ("current price".data, "current bid".data),
    ("highest price".data, "highest bid".data),
    ("what is the price".data, "what is the current bid".data),
    ("how much does it cost".data, "what is the current bid".data),
    ("i want to buy".data, "i want to bid".data),
    ("purchase".data, "bid".data),
    ("buy".data, "bid".data),
    ("get".data, "bid".data),
    ("take".data, "bid".data) ]

/-- Apply every correction, in table order, by literal `str.replace`. -/
def applyCorrections (l : List Char) : List Char :=
  correctionTable.foldl (fun t kv => pyReplace t kv.1 kv.2) l

/-- The `filler_words` list of `_preprocess_text`.  The entry `you know`
contains a space and therefore never matches a whitespace-split token;
it is kept to mirror the source. -/
def fillerWords : List (List Char) :=
  [ "um".data, "uh".data, "like".data, "you know".data, "actually".data,
    "basically".data, "well".data, "so".data, "okay".data ]

/-- Filler-word removal: split on whitespace, drop fillers, rejoin. -/
def removeFillers (l : List Char) : List Char :=
  joinWords ((splitWsL l).filter (fun w => ¬ fillerWords.contains w))

/-- `re.sub(r'[^\w\s$.]', ' ', text)`: non-kept characters become spaces. -/
def cleanupChars (l : List Char) : List Char :=
  l.map (fun c => if keptC c then c else ' ')

/-- `re.sub(r'\s+', ' ', text).strip()`. -/
def collapseWs (l : List Char) : List Char := stripL (subWsAux false l)

/-- `_preprocess_text` on character lists: lower-case and strip, apply the
correction table, remove filler words, replace disallowed characters by
spaces, collapse whitespace runs and strip. -/
def normChars (l : List Char) : List Char :=
  collapseWs (cleanupChars (removeFillers (applyCorrections (stripL (lowerL l)))))

/-- `_preprocess_text` on strings. -/
def preprocessText (s : String) : String := String.mk (normChars s.data)


/-! ## A small regex engine

The module uses `re.search`, `re.findall` and captured group 1 with the
`re.IGNORECASE` flag.  The patterns only use literals, the classes `\d`
and `\s`, the quantifiers `?`, `+` and exactly-two repetition, anchors
`^` and `$`, non-capturing alternation groups and a single capturing
group, so the abstract syntax below covers them.  The matcher is a
backtracking matcher in continuation style with the same preference
order as the Python engine: alternatives left first, quantifiers greedy,
and the search tries start positions from the left. -/

inductive RE where
  | eps : RE
  | cls : (Char → Bool) → RE
  | plus : (Char → Bool) → RE
  | rep2 : (Char → Bool) → RE
  | seq : RE → RE → RE
  | alt : RE → RE → RE
  | opt : RE → RE
  | grp : RE → RE
  | bos : RE
  | eos : RE

/-- Literal one-character regex. -/
def chr (c : Char) : RE := .cls (fun x => x = c)

/-- Literal word regex. -/
def lit (w : String) : RE := w.data.foldr (fun c r => .seq (chr c) r) .eps

/-- Sequencing of a pattern list. -/
def cat (l : List RE) : RE := l.foldr .seq .eps

/-- Left-preferring alternation of `r` and the further choices `l`. -/
def altL (r : RE) (l : List RE) : RE := l.foldl .alt r

/-- Length of the run of characters satisfying `p`. -/
def countRun (p : Char → Bool) : List Char → Nat
  | [] => 0
  | c :: cs => if p c then countRun p cs + 1 else 0

/-- Result passed through the matcher continuations: end position and
optional span of capturing group 1. -/
abbrev MRes := Option (Nat × Option (Nat × Nat))

/-- Greedy backtracking for `+` over a character class: try the longest
run first, then shorter ones, never zero. -/
def plusBT (k : Nat → Option (Nat × Nat) → MRes) (i : Nat)
    (cap : Option (Nat × Nat)) : Nat → MRes
  | 0 => none
  | n + 1 =>
    match k (i + (n + 1)) cap with
    | some r => some r
    | none => plusBT k i cap n

/-- The backtracking matcher.  `s` is the subject, `i` the current
position, `cap` the group-1 span captured so far and `k` the
continuation.  `$` matches at the end of the subject or before a single
final newline, as in Python without `re.MULTILINE`. -/
def reRun (s : List Char) : RE → Nat → Option (Nat × Nat) →
    (Nat → Option (Nat × Nat) → MRes) → MRes
  | .eps, i, cap, k => k i cap
  | .cls p, i, cap, k =>
    match s[i]? with
    | some c => if p c then k (i + 1) cap else none
    | none => none
  | .plus p, i, cap, k => plusBT k i cap (countRun p (s.drop i))
  | .rep2 p, i, cap, k =>
    match s[i]?, s[i + 1]? with
    | some a, some b => if p a ∧ p b then k (i + 2) cap else none
    | _, _ => none
  | .seq r1 r2, i, cap, k =>
    reRun s r1 i cap (fun j c2 => reRun s r2 j c2 k)
  | .alt r1 r2, i, cap, k =>
    match reRun s r1 i cap k with
    | some r => some r
    | none => reRun s r2 i cap k
  | .opt r, i, cap, k =>
    match reRun s r i cap k with
    | some r2 => some r2
    | none => k i cap
  | .grp r, i, cap, k => reRun s r i cap (fun j _ => k j (some (i, j)))
  | .bos, i, cap, k => if i = 0 then k i cap else none
  | .eos, i, cap, k =>
    if i = s.length then k i cap
    else if i + 1 = s.length ∧ s[i]? = some '\n' then k i cap else none

/-- A match: start, end, and the span of group 1 when it participated. -/
structure RMatch where
  startPos : Nat
  endPos : Nat
  grp : Option (Nat × Nat)
deriving DecidableEq

/-- Try each start position from `pos` upward, leftmost match first,
as `re.search` does.  The first argument counts remaining candidates. -/
def searchFrom (r : RE) (s : List Char) : Nat → Nat → Option RMatch
  | 0, _ => none
  | n + 1, pos =>
    match reRun s r pos none (fun j c => some (j, c)) with
    | some (j, c) => some ⟨pos, j, c⟩
    | none => searchFrom r s n (pos + 1)

/-- `re.search(pattern, s)`. -/
def reSearch (r : RE) (s : List Char) : Option RMatch :=
  searchFrom r s (s.length + 1) 0

/-- The text of group 1 of a match, when the group participated. -/
def groupStr (s : List Char) (m : RMatch) : Option (List Char) :=
  m.grp.map (fun ij => (s.drop ij.1).take (ij.2 - ij.1))

/-- The full text of a match. -/
def matchStr (s : List Char) (m : RMatch) : List Char :=
  (s.drop m.startPos).take (m.endPos - m.startPos)

/-- Worker for `re.findall`: scan left to right, continuing after each
match (one past it if it was empty).  Fuel `s.length + 1` bounds the
number of matches. -/
def findAllAux (r : RE) (s : List Char) : Nat → Nat → List RMatch
  | 0, _ => []
  | fuel + 1, pos =>
    if pos > s.length then []
    else
      match searchFrom r s (s.length + 1 - pos) pos with
      | some m =>
        m :: findAllAux r s fuel (if m.startPos < m.endPos then m.endPos else m.endPos + 1)
      | none => []

/-- `re.findall(pattern, s)` as a list of matches. -/
def reFindAll (r : RE) (s : List Char) : List RMatch :=
  findAllAux r s (s.length + 1) 0

/-! ## The intent registry (`_initialize_patterns`)

Each Python regex is transcribed next to its pattern string.  Helper
shapes: `num` is `\d+(?:\.\d{2})?`, `sp` is `\s+`, `dOpt` is `(?:[$]?)`
and `gNum` is the capturing group `(\d+(?:\.\d{2})?)`. -/

/-- `\s+` -/
def sp : RE := .plus isWS

/-- `\d+(?:\.\d{2})?` -/
def num : RE := .seq (.plus isDigitA) (.opt (.seq (chr '.') (.rep2 isDigitA)))

/-- `(?:[$]?)` -/
def dOpt : RE := .opt (chr '$')

/-- `(\d+(?:\.\d{2})?)` -/
def gNum : RE := .grp num

/-- `s?` after a literal, as in `dollars?`. -/
def litS (w : String) : RE := .seq (lit w) (.opt (chr 's'))

/-- The `bidding` pattern list, in source order. -/
def biddingPatterns : List RE :=
  [ -- (?:bid|place\s+(?:a\s+)?bid(?:\s+of)?)\s+(?:[$]?)(\d+(?:\.\d{2})?)
    cat [altL (lit "bid")
          [cat [lit "place", sp, .opt (cat [lit "a", sp]), lit "bid",
                .opt (cat [sp, lit "of"])]],
         sp, dOpt, gNum],
    -- (?:offer|put\s+(?:in|up))\s+(?:[$]?)(\d+(?:\.\d{2})?)
    cat [altL (lit "offer") [cat [lit "put", sp, altL (lit "in") [lit "up"]]],
         sp, dOpt, gNum],
    -- (?:[$]?)(\d+(?:\.\d{2})?)\s+(?:dollars?|bucks?|usd)
    cat [dOpt, gNum, sp, altL (litS "dollar") [litS "buck", lit "usd"]],
    -- go\s+(?:[$]?)(\d+(?:\.\d{2})?)
    cat [lit "go", sp, dOpt, gNum],
    -- raise\s+(?:to\s+)?(?:[$]?)(\d+(?:\.\d{2})?)
    cat [lit "raise", sp, .opt (cat [lit "to", sp]), dOpt, gNum],
    -- increase\s+(?:to\s+)?(?:[$]?)(\d+(?:\.\d{2})?)
    cat [lit "increase", sp, .opt (cat [lit "to", sp]), dOpt, gNum],
    -- i\s+(?:want\s+to\s+|will\s+)?bid\s+(?:[$]?)(\d+(?:\.\d{2})?)
    cat [lit "i", sp,
         .opt (altL (cat [lit "want", sp, lit "to", sp]) [cat [lit "will", sp]]),
         lit "bid", sp, dOpt, gNum],
    -- let\s+me\s+bid\s+(?:[$]?)(\d+(?:\.\d{2})?)
    cat [lit "let", sp, lit "me", sp, lit "bid", sp, dOpt, gNum],
    -- my\s+bid\s+is\s+(?:[$]?)(\d+(?:\.\d{2})?)
    cat [lit "my", sp, lit "bid", sp, lit "is", sp, dOpt, gNum],
    -- (?:[$]?)(\d+(?:\.\d{2})?)(?:\s+(?:please|now|dollars?))?$
    cat [dOpt, gNum, .opt (cat [sp, altL (lit "please") [lit "now", litS "dollar"]]),
         .eos],
    -- make\s+it\s+(?:[$]?)(\d+(?:\.\d{2})?)
    cat [lit "make", sp, lit "it", sp, dOpt, gNum],
    -- (?:i\s+)?(?:ll\s+)?take\s+it\s+for\s+(?:[$]?)(\d+(?:\.\d{2})?)
    cat [.opt (cat [lit "i", sp]), .opt (cat [lit "ll", sp]), lit "take", sp,
         lit "it", sp, lit "for", sp, dOpt, gNum] ]

/-- The `listing` pattern list, in source order. -/
def listingPatterns : List RE :=
  [ -- (?:list|show|display)\s+(?:all\s+)?(?:active\s+)?auctions?
    cat [altL (lit "list") [lit "show", lit "display"], sp,
         .opt (cat [lit "all", sp]), .opt (cat [lit "active", sp]), litS "auction"],
    -- what\s+auctions?\s+(?:are\s+)?(?:available|active)
    cat [lit "what", sp, litS "auction", sp, .opt (cat [lit "are", sp]),
         altL (lit "available") [lit "active"]],
    -- show\s+me\s+(?:the\s+)?auctions?
    cat [lit "show", sp, lit "me", sp, .opt (cat [lit "the", sp]), litS "auction"],
    -- available\s+auctions?
    cat [lit "available", sp, litS "auction"],
    -- current\s+auctions?
    cat [lit "current", sp, litS "auction"],
    -- auctions?\s+(?:list|available)
    cat [litS "auction", sp, altL (lit "list") [lit "available"]],
    -- ^auctions?$
    cat [.bos, litS "auction", .eos],
    -- what\s+(?:is|are)\s+(?:available|for\s+sale)
    cat [lit "what", sp, altL (lit "is") [lit "are"], sp,
         altL (lit "available") [cat [lit "for", sp, lit "sale"]]],
    -- browse\s+(?:items|auctions?)
    cat [lit "browse", sp, altL (lit "items") [litS "auction"]] ]

/-- The `status` pattern list, in source order. -/
def statusPatterns : List RE :=
  [ -- (?:current|highest|latest)\s+bid
    cat [altL (lit "current") [lit "highest", lit "latest"], sp, lit "bid"],
    -- what\s+(?:is\s+)?(?:the\s+)?(?:current|highest)\s+bid
    cat [lit "what", sp, .opt (cat [lit "is", sp]), .opt (cat [lit "the", sp]),
         altL (lit "current") [lit "highest"], sp, lit "bid"],
    -- bid\s+status
    cat [lit "bid", sp, lit "status"],
    -- how\s+much\s+(?:is\s+)?(?:the\s+)?(?:current\s+)?bid
    cat [lit "how", sp, lit "much", sp, .opt (cat [lit "is", sp]),
         .opt (cat [lit "the", sp]), .opt (cat [lit "current", sp]), lit "bid"],
    -- price\s+(?:now|current)
    cat [lit "price", sp, altL (lit "now") [lit "current"]],
    -- status
    lit "status",
    -- what\s+(?:is\s+)?(?:the\s+)?price
    cat [lit "what", sp, .opt (cat [lit "is", sp]), .opt (cat [lit "the", sp]),
         lit "price"],
    -- how\s+much\s+(?:does\s+it\s+cost|is\s+it)
    cat [lit "how", sp, lit "much", sp,
         altL (cat [lit "does", sp, lit "it", sp, lit "cost"])
           [cat [lit "is", sp, lit "it"]]] ]

/-- The `help` pattern list, in source order. -/
def helpPatterns : List RE :=
  [ lit "help",                                -- help
    -- what\s+can\s+(?:you\s+)?do
    cat [lit "what", sp, lit "can", sp, .opt (cat [lit "you", sp]), lit "do"],
    litS "command",                            -- commands?
    -- how\s+(?:do\s+i|to)
    cat [lit "how", sp, altL (cat [lit "do", sp, lit "i"]) [lit "to"]],
    litS "instruction",                        -- instructions?
    lit "guide",                               -- guide
    lit "tutorial",                            -- tutorial
    lit "explain" ]                            -- explain

/-- The `greeting` pattern list, in source order. -/
def greetingPatterns : List RE :=
  [ -- ^(?:hello|hi|hey|start)$
    cat [.bos, altL (lit "hello") [lit "hi", lit "hey", lit "start"], .eos],
    -- good\s+(?:morning|afternoon|evening)
    cat [lit "good", sp, altL (lit "morning") [lit "afternoon", lit "evening"]],
    litS "greeting",                           -- greetings?
    lit "howdy",                               -- howdy
    cat [lit "what", sp, lit "up"] ]           -- what\s+up

/-- The `insights` pattern list, in source order. -/
def insightsPatterns : List RE :=
  [ -- (?:analyze|analysis)\s+(?:market\s+)?trends?
    cat [altL (lit "analyze") [lit "analysis"], sp, .opt (cat [lit "market", sp]),
         litS "trend"],
    -- market\s+insights?
    cat [lit "market", sp, litS "insight"],
    -- recommend(?:ations?)?
    .seq (lit "recommend") (.opt (litS "ation")),
    -- suggest(?:ions?)?
    .seq (lit "suggest") (.opt (litS "ion")),
    litS "insight",                            -- insights?
    litS "analytic",                           -- analytics?
    litS "statistic",                          -- statistics?
    cat [lit "data", sp, lit "analysis"] ]     -- data\s+analysis

/-- Static per-intent configuration from `_initialize_patterns`. -/
structure IntentConfig where
  patterns : List RE
  keywords : List String
  boost : ℚ
  priority : ℕ

/-- The full registry, in Python dict insertion order. -/
def commandPatterns : List (String × IntentConfig) :=
  [ ("bidding",
     ⟨biddingPatterns,
      ["bid", "offer", "place", "put", "raise", "increase", "dollars", "bucks", "take"],
      0.15, 1⟩),
    ("listing",
     ⟨listingPatterns,
      ["list", "show", "display", "auctions", "available", "current", "browse"],
      0.1, 2⟩),
    ("status",
     ⟨statusPatterns,
      ["current", "highest", "bid", "status", "price", "much", "cost"],
      0.1, 3⟩),
    ("help",
     ⟨helpPatterns,
      ["help", "commands", "instructions", "how", "guide", "explain"],
      0.15, 4⟩),
    ("greeting",
     ⟨greetingPatterns,
      ["hello", "hi", "hey", "start", "good", "greetings"],
      0.1, 5⟩),
    ("insights",
     ⟨insightsPatterns,
      ["analyze", "market", "insights", "recommend", "suggest", "analytics", "data"],
      0.1, 6⟩) ]

/-- `self.command_patterns.get(intent, {})`: missing keys give the
defaults used by `_calculate_confidence`, namely `keywords = []`,
`confidence_boost = 0` and `priority = 5`. -/
def lookupCfg (intent : String) : IntentConfig :=
  match commandPatterns.lookup intent with
  | some cfg => cfg
  | none => ⟨[], [], 0, 5⟩

/-! ## `difflib.SequenceMatcher.ratio`

`_fuzzy_match_intent` calls `difflib.SequenceMatcher(None, text,
keyword).ratio()`.  The second sequence is always a short keyword, so the
autojunk heuristic (which only fires for sequences of length at least
200) never applies, and `ratio` is the plain Ratcliff-Obershelp value:
twice the total size of the recursively chosen longest matching blocks,
divided by the two lengths added.  The longest matching block is the
largest `k` with `a[i:i+k] = b[j:j+k]`, ties resolved by least `i`, then
least `j`, exactly as the `j2len` scan of `difflib` resolves them. -/

/-- Length of the longest common prefix. -/
def cpl : List Char → List Char → Nat
  | a :: as_, b :: bs => if a = b then cpl as_ bs + 1 else 0
  | _, _ => 0

/-- Longest matching block of `a` and `b` as `(i, j, k)`: maximise
`cpl (a.drop i) (b.drop j)` scanning `i` then `j` upward with strict
improvement, which yields the least `(i, j)` among the maxima. -/
def longestMatch (a b : List Char) : Nat × Nat × Nat :=
  (List.range a.length).foldl (fun best i =>
    (List.range b.length).foldl (fun best j =>
      let k := cpl (a.drop i) (b.drop j)
      if k > best.2.2 then (i, j, k) else best) best) (0, 0, 0)

/-- Total size of all matching blocks: take the longest block, then
recurse on the pieces to its left and to its right, as
`get_matching_blocks` does.  Each recursion strictly shrinks both
pieces, so fuel `a.length + b.length` is never exhausted. -/
def totalMatch : Nat → List Char → List Char → Nat
  | 0, _, _ => 0
  | fuel + 1, a, b =>
    let t := longestMatch a b
    if t.2.2 = 0 then 0
    else
      totalMatch fuel (a.take t.1) (b.take t.2.1) + t.2.2 +
        totalMatch fuel (a.drop (t.1 + t.2.2)) (b.drop (t.2.1 + t.2.2))

/-- `SequenceMatcher(None, a, b).ratio()`; both sequences empty gives 1. -/
def ratioRO (a b : List Char) : ℚ :=
  if a.length + b.length = 0 then 1
  else 2 * (totalMatch (a.length + b.length) a b : ℚ) / (a.length + b.length)

/-! ## Session history entries and `_calculate_confidence` -/

/-- The per-utterance classification result, keeping the fields the
claims are about (`intent`, `confidence`, `method` and the extracted
bid amount from the `data` dict). -/
structure CmdResult where
  intent : String
  confidence : ℚ
  method : String
  bidAmount : Option ℚ
deriving DecidableEq

/-- One entry of `self.conversation_history`, as built in
`process_voice_command`: a dict with keys `user_id`, `input`, `result`,
`timestamp`, `session_stats` and `processing_time`.  The fields the
claims use are kept. -/
structure ConvEntry where
  userId : String
  inputText : String
  result : CmdResult
deriving DecidableEq

/-- `self.conversation_history[-1].get('intent', '')` as evaluated by
`_calculate_confidence`: the entry dict has no key named `intent` (the
intent sits inside the nested `result` dict), so the lookup always
returns the default, the empty string. -/
def entryGetIntent (_ : ConvEntry) : String := ""

/-- Word-boundary search `re.search(r'\b' + re.escape(kw) + r'\b', text)`
for the alphabetic keywords of the registry: the keyword occurs with no
word character on either side. -/
def wordBoundaryHit (t kw : List Char) : Bool :=
  (List.range (t.length + 1)).any (fun i =>
    kw.isPrefixOf (t.drop i) &&
    (i == 0 || (match t[i - 1]? with | some c => ! isWordA c | none => true)) &&
    (match t[i + kw.length]? with | some c => ! isWordA c | none => true))

/-- `_calculate_confidence(text, intent, pattern_match)`.  The five
additive terms of the source, clamped to 0.99.  The context bonus reads
the previous entry through `entryGetIntent`. -/
def calcConfidence (hist : List ConvEntry) (text : String) (intent : String)
    (patternMatch : Bool) : ℚ :=
  let base : ℚ := if patternMatch then 0.75 + 0.2 else 0.75
  let cfg := lookupCfg intent
  let kwCount := (cfg.keywords.filter
    (fun kw => containsSub (lowerL text.data) kw.data)).length
  let kwBonus := min ((kwCount : ℚ) * 0.08) 0.2
  let wc := (splitWsL text.data).length
  let clarity : ℚ :=
    if 2 ≤ wc ∧ wc ≤ 8 then 0.15
    else if 9 ≤ wc ∧ wc ≤ 15 then 0.1
    else if 15 < wc then max 0 (0.1 - ((wc : ℚ) - 15) * 0.02)
    else 0.05
  let ctx : ℚ :=
    if 0 < hist.length then
      match hist.getLast? with
      | some e => if intent = entryGetIntent e then 0.05 else 0
      | none => 0
    else 0
  let pb : ℚ := (5 - (cfg.priority : ℚ)) * 0.02
  min (base + kwBonus + clarity + ctx + pb + cfg.boost) 0.99

/-! ## `_fuzzy_match_intent` -/

/-- Similarity of the input text and one keyword: the sequence ratio,
raised to at least 0.8 when the keyword occurs as a substring and to at
least 0.9 when it occurs on word boundaries, in source order. -/
def keywordSim (t kw : List Char) : ℚ :=
  let s0 := ratioRO t kw
  let s1 := if containsSub t kw then max s0 0.8 else s0
  if wordBoundaryHit t kw then max s1 0.9 else s1

/-- One step of the keyword loop of `_fuzzy_match_intent`: a keyword
with similarity above 0.6 adds its similarity to `intent_score` and
counts one match. -/
def kwStep (t : List Char) (acc : ℚ × ℕ) (kw : String) : ℚ × ℕ :=
  let s := keywordSim t kw.data
  if s > 0.6 then (acc.1 + s, acc.2 + 1) else acc

/-- Accumulate `(intent_score, keyword_matches)` over one keyword list. -/
def kwScore (t : List Char) (kws : List String) : ℚ × ℕ :=
  kws.foldl (kwStep t) (0, 0)

/-- One step of the best-intent fold of `_fuzzy_match_intent`: an intent
with at least one keyword match gets the weighted score
`(intent_score / len(keywords)) * (keyword_matches / len(keywords))`,
kept only on strict improvement. -/
def fuzzyStep (t : List Char) (best : Option String × ℚ)
    (nc : String × IntentConfig) : Option String × ℚ :=
  let sc := kwScore t nc.2.keywords
  if 0 < sc.2 then
    let ws := (sc.1 / (nc.2.keywords.length : ℚ)) *
      ((sc.2 : ℚ) / (nc.2.keywords.length : ℚ))
    if ws > best.2 then (some nc.1, ws) else best
  else best

/-- The best-intent fold of `_fuzzy_match_intent`, starting from
`(None, 0)`. -/
def fuzzyBest (t : List Char) : Option String × ℚ :=
  commandPatterns.foldl (fuzzyStep t) (none, 0)

/-- `_fuzzy_match_intent(text)`: the best intent wins when its weighted
score exceeds 0.6, with confidence
`_calculate_confidence(text, intent, False) * best_score`; otherwise
`("unknown", 0.1)`. -/
def fuzzyMatchIntent (hist : List ConvEntry) (t : String) : String × ℚ :=
  match fuzzyBest t.data with
  | (some m, bs) =>
    if bs > 0.6 then (m, calcConfidence hist t m false * bs) else ("unknown", 0.1)
  | (none, _) => ("unknown", 0.1)

/-! ## `_extract_bid_amount` -/

/-- Parse the decimal shapes produced by the numeric captures
(`\d+` optionally followed by a dot and digits), as `float()` reads
them.  Other shapes give `none`. -/
def parseDec (l : List Char) : Option ℚ :=
  match l.span (fun c => c ≠ '.') with
  | (intPart, []) =>
    if intPart ≠ [] ∧ intPart.all isDigitA then
      some ((intPart.foldl (fun acc c => acc * 10 + (c.toNat - 48)) 0 : ℕ) : ℚ)
    else none
  | (intPart, _ :: frac) =>
    if intPart ≠ [] ∧ intPart.all isDigitA ∧ frac ≠ [] ∧ frac.all isDigitA then
      some (((intPart.foldl (fun acc c => acc * 10 + (c.toNat - 48)) 0 : ℕ) : ℚ) +
        ((frac.foldl (fun acc c => acc * 10 + (c.toNat - 48)) 0 : ℕ) : ℚ) /
          ((10 : ℚ) ^ frac.length))
    else none

/-- The range test `0.01 <= amount <= 10000000` of `_extract_bid_amount`. -/
def amountInRange (a : ℚ) : Bool := 0.01 ≤ a ∧ a ≤ 10000000

/-- The three `currency_patterns` of method 2, in source order. -/
def currencyPatterns : List RE :=
  [ -- (\d+(?:\.\d{2})?)\s*(?:dollars?|bucks?|usd|\$)
    cat [gNum, .opt sp, altL (litS "dollar") [litS "buck", lit "usd", chr '$']],
    -- \$\s*(\d+(?:\.\d{2})?)
    cat [chr '$', .opt sp, gNum],
    -- (\d+(?:\.\d{2})?)\s*(?:dollar|buck)
    cat [gNum, .opt sp, altL (lit "dollar") [lit "buck"]] ]

/-- The bidding-context keywords of method 3. -/
def contextKeywords : List String := ["bid", "offer", "dollars", "bucks", "place", "put"]

/-- `\d+(?:\.\d{2})?` without a group, for the bare-number `findall`. -/
def bareNum : RE := num

/-- Method 1 of `_extract_bid_amount`: the first bidding pattern whose
first match captures an in-range amount.  All three methods run on the
lower-cased text, which models `re.IGNORECASE` (the captures are digits
and dots, unchanged by case).  Parse failures and out-of-range values
are skipped silently. -/
def extractTier1 (t : List Char) : Option ℚ :=
  biddingPatterns.findSome? (fun p =>
    match reSearch p t with
    | some m =>
      match (groupStr t m).bind parseDec with
      | some a => if amountInRange a then some a else none
      | none => none
    | none => none)

/-- Method 2 of `_extract_bid_amount`: every match of each currency
pattern, first in-range parsed capture wins. -/
def extractTier2 (t : List Char) : Option ℚ :=
  currencyPatterns.findSome? (fun p =>
    (reFindAll p t).findSome? (fun m =>
      match (groupStr t m).bind parseDec with
      | some a => if amountInRange a then some a else none
      | none => none))

/-- Method 3 of `_extract_bid_amount`: any bare number in range, provided
some bidding keyword occurs anywhere in the text. -/
def extractTier3 (t : List Char) : Option ℚ :=
  (reFindAll bareNum t).findSome? (fun m =>
    match parseDec (matchStr t m) with
    | some a =>
      if amountInRange a ∧ contextKeywords.any (fun kw => containsSub t kw.data) then
        some a
      else none
    | none => none)

/-- `_extract_bid_amount(text)`: the three methods in order. -/
def extractBidAmount (text : String) : Option ℚ :=
  let t := lowerL text.data
  ((extractTier1 t).orElse (fun _ => extractTier2 t)).orElse (fun _ => extractTier3 t)

/-! ## `process_command` -/

/-- The bidding scan at the head of `process_command`: the first bidding
pattern, in list order, whose match captures a group parsing to a
positive amount.  Patterns that match with a non-positive or unparsable
capture are passed over, as the `continue` in the source does. -/
def bidScan (t : List Char) : Option ℚ :=
  biddingPatterns.findSome? (fun p =>
    match reSearch p t with
    | some m =>
      match (groupStr t m).bind parseDec with
      | some a => if 0 < a then some a else none
      | none => none
    | none => none)

/-- The inline bidding confidence of `process_command`: 0.95 for amounts
above 10, else 0.90, and 0.05 more, capped at 0.99, for amounts in
[10, 10000]. -/
def bidConfidence (a : ℚ) : ℚ :=
  let c : ℚ := if 10 < a then 0.95 else 0.90
  if 10 ≤ a ∧ a ≤ 10000 then min (c + 0.05) 0.99 else c

/-- The per-intent confidence of the non-bidding pattern loop: base 0.9,
overridden by the special cases of the source, then the intent boost,
capped at 0.99. -/
def intentConfidence (t : List Char) (name : String) (cfg : IntentConfig) : ℚ :=
  let c : ℚ :=
    if name = "listing" ∧ containsSub t "active".data then 0.96
    else if name = "status" ∧ containsSub t "current".data then 0.96
    else if name = "help" ∧ stripL t = "help".data then 0.98
    else if name = "greeting" ∧ (t = "hello".data ∨ t = "hi".data ∨ t = "hey".data)
      then 0.97
    else 0.9
  min (c + cfg.boost) 0.99

/-- One step of the non-bidding pattern loop: skip `bidding`; an intent
whose pattern list has any match is scored with `intentConfidence`, and
the strictly best (intent, confidence) pair is kept. -/
def patternStep (t : List Char) (best : Option String × ℚ)
    (nc : String × IntentConfig) : Option String × ℚ :=
  if nc.1 = "bidding" then best
  else if nc.2.patterns.any (fun p => (reSearch p t).isSome) then
    let c := intentConfidence t nc.1 nc.2
    if c > best.2 then (some nc.1, c) else best
  else best

/-- The non-bidding pattern loop: intents in registry order, starting
from `(None, 0)`. -/
def patternStage (t : List Char) : Option String × ℚ :=
  commandPatterns.foldl (patternStep t) (none, 0)

/-- The `keyword_matches` fallback table, in dict insertion order. -/
def keywordTable : List (String × String) :=
  [ ("bid", "bidding"), ("list", "listing"), ("show", "listing"),
    ("status", "status"), ("help", "help"), ("price", "status"),
    ("current", "status"), ("available", "listing"), ("auctions", "listing") ]

/-- The final keyword fallback: the first table entry contained in the
preprocessed text. -/
def keywordFallback (t : List Char) : Option String :=
  keywordTable.findSome? (fun kv =>
    if containsSub t kv.1.data then some kv.2 else none)

/-- `process_command(input_text)`: preprocess, try the bidding patterns
(returning at the first positive captured amount), then the other
intents by pattern, then fuzzy matching when its confidence exceeds
0.7, then the keyword fallback at flat 0.75, else `unknown` at 0.1.
The `context` dict of the source is derived data not modelled here. -/
def processCommand (hist : List ConvEntry) (inputText : String) : CmdResult :=
  let t := normChars inputText.data
  match bidScan t with
  | some a => ⟨"bidding", bidConfidence a, "pattern_match", some a⟩
  | none =>
    match patternStage t with
    | (some intent, c) => ⟨intent, c, "pattern_match", none⟩
    | (none, _) =>
      let f := fuzzyMatchIntent hist (String.mk t)
      if f.2 > 0.7 then ⟨f.1, f.2, "fuzzy_match", none⟩
      else
        match keywordFallback t with
        | some intent => ⟨intent, 0.75, "keyword_match", none⟩
        | none => ⟨"unknown", 0.1, "no_match", none⟩

/-! ## `process_voice_command` session-history maintenance -/

/-- One turn of history maintenance in `process_voice_command`: append
the entry, then keep only the last 50 entries. -/
def recordTurn (hist : List ConvEntry) (e : ConvEntry) : List ConvEntry :=
  let h := hist ++ [e]
  if 50 < h.length then h.drop (h.length - 50) else h

/-- Sequential turns starting from an empty history. -/
def runTurns (es : List ConvEntry) : List ConvEntry :=
  es.foldl recordTurn []

/-- The processor state read by `process_command`: the conversation
history plus state components `process_command` never reads
(session counters and the per-user context dict). -/
structure ProcState where
  conversationHistory : List ConvEntry
  totalCommands : ℕ
  successfulCommands : ℕ
  userContext : List (String × String)

/-- `process_command` as a function of the full processor state. -/
def processCommandS (st : ProcState) (inputText : String) : CmdResult :=
  processCommand st.conversationHistory inputText

/-! ## Concrete objects used by witnesses and counterexamples -/

/-- The six registry intent tags. -/
def registryNames : List String :=
  ["bidding", "listing", "status", "help", "greeting", "insights"]

/-- A history entry whose previous classification was `listing`, for the
context-bonus claim. -/
def c6Entry : ConvEntry :=
  ⟨"user1", "show auctions", ⟨"listing", 0.99, "pattern_match", none⟩⟩

/-- Sixty distinct history entries, for the history-bound claim. -/
def c8Entries : List ConvEntry :=
  (List.range 60).map (fun i => ⟨"user1", toString i, ⟨"listing", 0.75, "keyword_match", none⟩⟩)

/-- Two processor states sharing one conversation history but differing
in every other state component. -/
def c9StateA : ProcState := ⟨[c6Entry], 0, 0, []⟩

/-- See `c9StateA`. -/
def c9StateB : ProcState := ⟨[c6Entry], 7, 3, [("user1", "listing")]⟩

/-! ## Canonical form of preprocessed text -/

/-- No two adjacent plain spaces occur. -/
def noDouble (l : List Char) : Prop := ¬ [' ', ' '] <:+: l

/-- Every whitespace character in the list is the plain space. -/
def wsSpaceOnly (l : List Char) : Prop := ∀ c ∈ l, isWS c = true → c = ' '

/-- Canonical form produced by the whitespace-collapsing final step of
`_preprocess_text`: only plain spaces as whitespace, never two in a row,
none at either end. -/
def CanonTxt (l : List Char) : Prop :=
  wsSpaceOnly l ∧ noDouble l ∧ l.head? ≠ some ' ' ∧ l.getLast? ≠ some ' '

/-! # Theorems -/

/-! ## Helper lemmas -/

/-- The inline bidding confidence equals the formula of the claim:
start at 0.95 when the amount exceeds 10 else 0.90, add 0.05 when the
amount lies in [10, 10000], cap at 0.99. -/
theorem bidConfidence_eq_claim (a : ℚ) :
    bidConfidence a =
      min ((if 10 < a then (0.95 : ℚ) else 0.90) +
        (if 10 ≤ a ∧ a ≤ 10000 then (0.05 : ℚ) else 0)) 0.99 := by
  unfold bidConfidence
  dsimp only
  split_ifs <;> norm_num

/-- A range-guarded option yields only in-range values. -/
theorem amount_guard {x a : ℚ}
    (h : (if amountInRange x then some x else none) = some a) :
    0.01 ≤ a ∧ a ≤ 10000000 := by
  split_ifs at h with hr
  simp only [amountInRange, decide_eq_true_eq] at hr
  injection h with h
  subst h
  exact hr

/-- Method 1 returns only in-range amounts. -/
theorem extractTier1_range (t : List Char) (a : ℚ)
    (h : extractTier1 t = some a) : 0.01 ≤ a ∧ a ≤ 10000000 := by
  obtain ⟨p, -, hp⟩ := List.exists_of_findSome?_eq_some h
  rcases hs : reSearch p t with _ | m
  · simp [hs] at hp
  · simp only [hs] at hp
    rcases hg : (groupStr t m).bind parseDec with _ | x
    · simp [hg] at hp
    · simp only [hg] at hp
      exact amount_guard hp

/-- Method 2 returns only in-range amounts. -/
theorem extractTier2_range (t : List Char) (a : ℚ)
    (h : extractTier2 t = some a) : 0.01 ≤ a ∧ a ≤ 10000000 := by
  obtain ⟨p, -, hp⟩ := List.exists_of_findSome?_eq_some h
  obtain ⟨m, -, hm⟩ := List.exists_of_findSome?_eq_some hp
  rcases hg : (groupStr t m).bind parseDec with _ | x
  · simp [hg] at hm
  · simp only [hg] at hm
    exact amount_guard hm

/-- Method 3 returns only in-range amounts. -/
theorem extractTier3_range (t : List Char) (a : ℚ)
    (h : extractTier3 t = some a) : 0.01 ≤ a ∧ a ≤ 10000000 := by
  obtain ⟨m, -, hm⟩ := List.exists_of_findSome?_eq_some h
  rcases hg : parseDec (matchStr t m) with _ | x
  · simp [hg] at hm
  · simp only [hg] at hm
    split_ifs at hm with hr
    simp only [amountInRange, decide_eq_true_eq] at hr
    injection hm with hm
    subst hm
    exact hr.1

/-- One recorded turn never leaves more than 50 entries. -/
theorem recordTurn_length_le (hist : List ConvEntry) (e : ConvEntry) :
    (recordTurn hist e).length ≤ 50 := by
  unfold recordTurn
  dsimp only
  split_ifs with h <;>
    simp only [List.length_drop, List.length_append, List.length_cons,
      List.length_nil] at * <;> omega

/-- Running turns from the empty history keeps exactly the last 50
entries, in order. -/
theorem runTurns_eq_dropLast (es : List ConvEntry) :
    runTurns es = es.drop (es.length - 50) := by
  induction es using List.reverseRecOn with
  | nil => simp [runTurns]
  | append_singleton es e ih =>
    have hstep : runTurns (es ++ [e]) = recordTurn (runTurns es) e := by
      unfold runTurns
      rw [List.foldl_append]
      rfl
    rw [hstep, ih]
    unfold recordTurn
    rcases le_or_lt es.length 49 with hlen | hlen
    · have h0 : es.length - 50 = 0 := by omega
      have h1 : (es ++ [e]).length - 50 = 0 := by simp; omega
      rw [h0, h1, List.drop_zero, List.drop_zero]
      rw [if_neg (by simp; omega)]
    · have hd : (es.drop (es.length - 50)).length = 50 := by
        simp only [List.length_drop]; omega
      rw [if_pos (by simp [hd])]
      have h2 : (es.drop (es.length - 50) ++ [e]).length - 50 = 1 := by
        simp [hd]
      rw [h2, List.drop_append_of_le_length (by omega : 1 ≤ (es.drop (es.length - 50)).length),
        List.drop_drop]
      have h3 : (es ++ [e]).length - 50 = (es.length - 50) + 1 := by simp; omega
      rw [h3, List.drop_append_of_le_length (by omega : es.length - 50 + 1 ≤ es.length)]

/-! ## Claim theorems -/

set_option maxRecDepth 1000000 in
/-- Claim C3, counterexample: classifying the exact input `help` does
not return confidence 0.98; the code boosts the 0.98 override by the
help intents confidence boost of 0.15 and caps the sum at 0.99. -/
theorem C3_help_counterexample : (processCommand [] "help").confidence ≠ 0.98 := by
  with_unfolding_all decide

set_option maxRecDepth 1000000 in
/-- Claim C3 as amended: classifying the exact input `help` returns
intent `help` by pattern match with confidence exactly 0.99 (the 0.98
override plus the 0.15 confidence boost, capped at 0.99), for any
session history. -/
theorem C3_help_amended (hist : List ConvEntry) :
    processCommand hist "help" = ⟨"help", 0.99, "pattern_match", none⟩ := by
  with_unfolding_all rfl

set_option maxRecDepth 1000000 in
/-- Claim C4, counterexample: on the lone keyword `bid` the fuzzy
matcher returns the default `("unknown", 0.1)`, not the owning intent
with confidence above 0.5. -/
theorem C4_fuzzy_counterexample :
    fuzzyMatchIntent [] "bid" = ("unknown", 0.1) ∧
      ¬ ((fuzzyMatchIntent [] "bid").1 = "bidding" ∧
        (0.5 : ℚ) < (fuzzyMatchIntent [] "bid").2) := by
  with_unfolding_all decide

set_option maxRecDepth 1000000 in
/-- Claim C4 as amended: on each of the lone keywords `bid`, `list` and
`status` the fuzzy matcher falls through to the default
`("unknown", 0.1)`: the double normalization of the weighted score
keeps every intent at or below the 0.6 gate. -/
theorem C4_fuzzy_amended (hist : List ConvEntry) :
    fuzzyMatchIntent hist "bid" = ("unknown", 0.1) ∧
    fuzzyMatchIntent hist "list" = ("unknown", 0.1) ∧
    fuzzyMatchIntent hist "status" = ("unknown", 0.1) := by
  refine ⟨?_, ?_, ?_⟩ <;> with_unfolding_all rfl

/-- Claim C5: whenever some bidding pattern matches the preprocessed
utterance with a capture parsing to a positive amount (`bidScan`),
`process_command` returns at once with intent `bidding`, method
`pattern_match`, that amount, and confidence 0.95 (amount above 10) or
0.90, plus 0.05 when the amount lies in [10, 10000], capped at 0.99. -/
theorem C5_bidding_first (hist : List ConvEntry) (text : String) (a : ℚ)
    (h : bidScan (normChars text.data) = some a) :
    processCommand hist text =
      ⟨"bidding",
       min ((if 10 < a then (0.95 : ℚ) else 0.90) +
         (if 10 ≤ a ∧ a ≤ 10000 then (0.05 : ℚ) else 0)) 0.99,
       "pattern_match", some a⟩ := by
  simp only [processCommand, h]
  rw [bidConfidence_eq_claim]

set_option maxRecDepth 1000000 in
/-- Witness for C5 at the concrete utterance `bid 500`. -/
theorem C5_bidding_first_witness :
    bidScan (normChars ("bid 500" : String).data) = some 500 ∧
    processCommand [] "bid 500" =
      ⟨"bidding",
       min ((if 10 < (500 : ℚ) then (0.95 : ℚ) else 0.90) +
         (if 10 ≤ (500 : ℚ) ∧ (500 : ℚ) ≤ 10000 then (0.05 : ℚ) else 0)) 0.99,
       "pattern_match", some 500⟩ :=
  ⟨by with_unfolding_all decide,
   C5_bidding_first [] "bid 500" 500 (by with_unfolding_all decide)⟩

set_option maxRecDepth 1000000 in
/-- Claim C6 (code bug): with a previous turn classified `listing`, the
confidence for scoring `listing` again is identical to the confidence
with an empty history, so the context-continuity bonus of 0.05 is never
added: `_calculate_confidence` reads `history[-1].get('intent', '')`,
but history entries store the intent inside their `result` dict and
have no top-level `intent` key, so the lookup always yields the empty
string. -/
theorem C6_context_bonus_dead :
    c6Entry.result.intent = "listing" ∧
    calcConfidence [c6Entry] "show auctions" "listing" false =
      calcConfidence [] "show auctions" "listing" false := by
  constructor
  · rfl
  · with_unfolding_all decide

/-- Claim C8: after every recorded turn the history holds at most 50
entries, and 60 sequential turns for one user leave exactly the 50 most
recent entries in their original order. -/
theorem C8_history_bound :
    (∀ (hist : List ConvEntry) (e : ConvEntry), (recordTurn hist e).length ≤ 50) ∧
    ∀ es : List ConvEntry, es.length = 60 →
      runTurns es = es.drop 10 ∧ (runTurns es).length = 50 := by
  refine ⟨recordTurn_length_le, fun es h => ?_⟩
  have h1 := runTurns_eq_dropLast es
  rw [h] at h1
  norm_num at h1
  refine ⟨h1, ?_⟩
  rw [h1]
  simp [List.length_drop, h]

/-- Witness for C8 on sixty concrete entries. -/
theorem C8_history_bound_witness :
    c8Entries.length = 60 ∧ runTurns c8Entries = c8Entries.drop 10 :=
  ⟨by simp [c8Entries], (C8_history_bound.2 c8Entries (by simp [c8Entries])).1⟩

/-- Claim C9: classification only reads the input text and the
conversation history; two processor states agreeing on the history
produce identical results for the same text, whatever their counters
and per-user context hold. -/
theorem C9_deterministic (s1 s2 : ProcState) (text : String)
    (h : s1.conversationHistory = s2.conversationHistory) :
    processCommandS s1 text = processCommandS s2 text := by
  unfold processCommandS
  rw [h]

/-- Witness for C9: two states sharing a history but differing in the
session counters and user context classify `status` identically. -/
theorem C9_deterministic_witness :
    c9StateA.conversationHistory = c9StateB.conversationHistory ∧
    processCommandS c9StateA "status" = processCommandS c9StateB "status" :=
  ⟨rfl, C9_deterministic c9StateA c9StateB "status" rfl⟩

set_option maxRecDepth 1000000 in
/-- Claim C7: the extractor yields only amounts in [0.01, 10000000] or
nothing, and the out-of-range utterance `bid 20000000 dollars` yields
nothing. -/
theorem C7_extract_range :
    (∀ (text : String) (a : ℚ), extractBidAmount text = some a →
      0.01 ≤ a ∧ a ≤ 10000000) ∧
    extractBidAmount "bid 20000000 dollars" = none := by
  constructor
  · intro text a h
    unfold extractBidAmount at h
    dsimp only at h
    rcases h1 : extractTier1 (lowerL text.data) with _ | x
    · rcases h2 : extractTier2 (lowerL text.data) with _ | y
      · rw [h1, h2] at h
        simp only [Option.orElse] at h
        exact extractTier3_range _ _ h
      · rw [h1, h2] at h
        simp only [Option.orElse] at h
        injection h with h
        subst h
        exact extractTier2_range _ _ h2
    · rw [h1] at h
      simp only [Option.orElse] at h
      injection h with h
      subst h
      exact extractTier1_range _ _ h1
  · with_unfolding_all decide

set_option maxRecDepth 1000000 in
/-- Witness for C7 at the concrete utterance `bid 100 dollars`. -/
theorem C7_extract_range_witness :
    extractBidAmount "bid 100 dollars" = some 100 ∧
      0.01 ≤ (100 : ℚ) ∧ (100 : ℚ) ≤ 10000000 :=
  ⟨by with_unfolding_all decide,
   C7_extract_range.1 "bid 100 dollars" 100 (by with_unfolding_all decide)⟩

/-! ## Bounds for the sequence ratio -/

/-- The common prefix is no longer than the left list. -/
theorem cpl_le_left : ∀ a b : List Char, cpl a b ≤ a.length := by
  intro a
  induction a with
  | nil => intro b; cases b <;> simp [cpl]
  | cons c cs ih =>
    intro b
    cases b with
    | nil => simp [cpl]
    | cons d ds =>
      simp only [cpl, List.length_cons]
      split_ifs
      · have := ih ds; omega
      · omega

/-- The common prefix is no longer than the right list. -/
theorem cpl_le_right : ∀ a b : List Char, cpl a b ≤ b.length := by
  intro a
  induction a with
  | nil => intro b; cases b <;> simp [cpl]
  | cons c cs ih =>
    intro b
    cases b with
    | nil => simp [cpl]
    | cons d ds =>
      simp only [cpl, List.length_cons]
      split_ifs
      · have := ih ds; omega
      · omega

/-- The longest matching block fits inside both lists. -/
theorem longestMatch_bound (a b : List Char) :
    (longestMatch a b).1 + (longestMatch a b).2.2 ≤ a.length ∧
      (longestMatch a b).2.1 + (longestMatch a b).2.2 ≤ b.length := by
  unfold longestMatch
  refine List.foldlRecOn (motive := fun best : Nat × Nat × Nat =>
    best.1 + best.2.2 ≤ a.length ∧ best.2.1 + best.2.2 ≤ b.length) _ _ _ ?_ ?_
  · simp
  · intro best hb i hi
    refine List.foldlRecOn (motive := fun best : Nat × Nat × Nat =>
      best.1 + best.2.2 ≤ a.length ∧ best.2.1 + best.2.2 ≤ b.length) _ _ _ hb ?_
    intro best2 hb2 j hj
    dsimp only
    split_ifs with hk
    · dsimp only
      have h1 : cpl (a.drop i) (b.drop j) ≤ (a.drop i).length := cpl_le_left _ _
      have h2 : cpl (a.drop i) (b.drop j) ≤ (b.drop j).length := cpl_le_right _ _
      have h3 : i < a.length := List.mem_range.mp hi
      have h4 : j < b.length := List.mem_range.mp hj
      simp only [List.length_drop] at h1 h2
      constructor <;> omega
    · exact hb2

/-- The total matched size is bounded by both lengths. -/
theorem totalMatch_le (fuel : Nat) :
    ∀ a b : List Char, totalMatch fuel a b ≤ min a.length b.length := by
  induction fuel with
  | zero => intro a b; simp [totalMatch]
  | succ n ih =>
    intro a b
    obtain ⟨h1, h2⟩ := longestMatch_bound a b
    simp only [totalMatch]
    split_ifs with hk
    · simp
    · have e1 := ih (a.take (longestMatch a b).1) (b.take (longestMatch a b).2.1)
      have e2 := ih (a.drop ((longestMatch a b).1 + (longestMatch a b).2.2))
        (b.drop ((longestMatch a b).2.1 + (longestMatch a b).2.2))
      simp only [List.length_take, List.length_drop, le_min_iff, min_le_iff] at e1 e2 ⊢
      omega

/-- The sequence ratio is nonnegative. -/
theorem ratioRO_nonneg (a b : List Char) : 0 ≤ ratioRO a b := by
  unfold ratioRO
  split_ifs
  · norm_num
  · exact div_nonneg (by positivity) (by positivity)

/-- The sequence ratio is at most one. -/
theorem ratioRO_le_one (a b : List Char) : ratioRO a b ≤ 1 := by
  unfold ratioRO
  split_ifs with h
  · norm_num
  · have hpos : 0 < a.length + b.length := Nat.pos_of_ne_zero h
    rw [div_le_one (by exact_mod_cast hpos)]
    have hm := totalMatch_le (a.length + b.length) a b
    have : 2 * totalMatch (a.length + b.length) a b ≤ a.length + b.length := by
      simp only [le_min_iff] at hm; omega
    exact_mod_cast this

/-- The per-keyword similarity lies in [0, 1]. -/
theorem keywordSim_bounds (t kw : List Char) :
    0 ≤ keywordSim t kw ∧ keywordSim t kw ≤ 1 := by
  have h0 := ratioRO_nonneg t kw
  have h1 := ratioRO_le_one t kw
  unfold keywordSim
  dsimp only
  split_ifs
  · exact ⟨le_trans (by norm_num) (le_max_right _ _),
      max_le (max_le h1 (by norm_num)) (by norm_num)⟩
  · exact ⟨le_trans (by norm_num) (le_max_right _ _), max_le h1 (by norm_num)⟩
  · exact ⟨le_trans (by norm_num) (le_max_right _ _), max_le h1 (by norm_num)⟩
  · exact ⟨h0, h1⟩

/-! ## Bounds for the fuzzy fold -/

/-- Keyword-loop invariant: the score stays nonnegative, at most the
match count, and the count grows by at most the number of keywords. -/
theorem kwScore_fold_bounds (t : List Char) :
    ∀ (kws : List String) (acc : ℚ × ℕ), 0 ≤ acc.1 → acc.1 ≤ (acc.2 : ℚ) →
      0 ≤ (kws.foldl (kwStep t) acc).1 ∧
      (kws.foldl (kwStep t) acc).1 ≤ ((kws.foldl (kwStep t) acc).2 : ℚ) ∧
      (kws.foldl (kwStep t) acc).2 ≤ acc.2 + kws.length := by
  intro kws
  induction kws with
  | nil => intro acc h0 h1; simpa using ⟨h0, h1⟩
  | cons kw rest ih =>
    intro acc h0 h1
    simp only [List.foldl_cons, List.length_cons]
    obtain ⟨hs0, hs1⟩ := keywordSim_bounds t kw.data
    have hstep : 0 ≤ (kwStep t acc kw).1 ∧ (kwStep t acc kw).1 ≤ ((kwStep t acc kw).2 : ℚ) ∧
        (kwStep t acc kw).2 ≤ acc.2 + 1 := by
      unfold kwStep
      dsimp only
      split_ifs with hgt
      · dsimp only
        refine ⟨by linarith, ?_, by omega⟩
        push_cast
        linarith
      · exact ⟨h0, h1, by omega⟩
    obtain ⟨ha, hb, hc⟩ := ih (kwStep t acc kw) hstep.1 hstep.2.1
    refine ⟨ha, hb, by omega⟩

/-- `kwScore` bounds: nonnegative score, score at most count, count at
most the keyword-list length. -/
theorem kwScore_bounds (t : List Char) (kws : List String) :
    0 ≤ (kwScore t kws).1 ∧ (kwScore t kws).1 ≤ ((kwScore t kws).2 : ℚ) ∧
      (kwScore t kws).2 ≤ kws.length := by
  have h := kwScore_fold_bounds t kws (0, 0) (by norm_num) (by norm_num)
  simpa [kwScore] using h

/-- One fuzzy step keeps the running best score in [0, 1]. -/
theorem fuzzyStep_bounds (t : List Char) (best : Option String × ℚ)
    (nc : String × IntentConfig) (h0 : 0 ≤ best.2) (h1 : best.2 ≤ 1) :
    0 ≤ (fuzzyStep t best nc).2 ∧ (fuzzyStep t best nc).2 ≤ 1 := by
  unfold fuzzyStep
  dsimp only
  obtain ⟨ha, hb, hc⟩ := kwScore_bounds t nc.2.keywords
  split_ifs with hn hgt
  · have hlen : 0 < nc.2.keywords.length := by omega
    have hlq : (0 : ℚ) < (nc.2.keywords.length : ℚ) := by exact_mod_cast hlen
    constructor
    · positivity
    · have d1 : (kwScore t nc.2.keywords).1 / (nc.2.keywords.length : ℚ) ≤ 1 := by
        rw [div_le_one hlq]
        calc (kwScore t nc.2.keywords).1 ≤ ((kwScore t nc.2.keywords).2 : ℚ) := hb
          _ ≤ (nc.2.keywords.length : ℚ) := by exact_mod_cast hc
      have d2 : ((kwScore t nc.2.keywords).2 : ℚ) / (nc.2.keywords.length : ℚ) ≤ 1 := by
        rw [div_le_one hlq]
        exact_mod_cast hc
      have d3 : (0 : ℚ) ≤ ((kwScore t nc.2.keywords).2 : ℚ) / (nc.2.keywords.length : ℚ) := by
        positivity
      exact mul_le_one₀ d1 d3 d2
  · exact ⟨h0, h1⟩
  · exact ⟨h0, h1⟩

/-- The fuzzy best score lies in [0, 1]. -/
theorem fuzzyBest_snd_bounds (t : List Char) :
    0 ≤ (fuzzyBest t).2 ∧ (fuzzyBest t).2 ≤ 1 := by
  unfold fuzzyBest
  refine List.foldlRecOn (motive := fun best : Option String × ℚ =>
    0 ≤ best.2 ∧ best.2 ≤ 1) _ _ _ (by norm_num) ?_
  intro best hb nc _
  exact fuzzyStep_bounds t best nc hb.1 hb.2

/-- Any named best intent of the fuzzy fold is a registry tag. -/
theorem fuzzyBest_fst_mem (t : List Char) :
    ∀ m, (fuzzyBest t).1 = some m → m ∈ registryNames := by
  unfold fuzzyBest
  have hall : ∀ nc ∈ commandPatterns, nc.1 ∈ registryNames := by decide
  refine List.foldlRecOn (motive := fun best : Option String × ℚ =>
    ∀ m, best.1 = some m → m ∈ registryNames) _ _ _ ?_ ?_
  · intro m h; simp at h
  · intro best hb nc hmem
    intro m hm
    unfold fuzzyStep at hm
    dsimp only at hm
    split_ifs at hm
    · dsimp only at hm
      injection hm with hm1
      rw [← hm1]
      exact hall nc hmem
    · exact hb m hm
    · exact hb m hm

/-! ## Bounds for the confidence scorer and the pattern stage -/

/-- A successful association lookup returns the value of some list pair. -/
theorem lookup_mem_snd :
    ∀ (l : List (String × IntentConfig)) (k : String) (v : IntentConfig),
      l.lookup k = some v → ∃ p ∈ l, p.2 = v := by
  intro l
  induction l with
  | nil => intro k v h; simp [List.lookup] at h
  | cons kv rest ih =>
    intro k v h
    obtain ⟨a, b⟩ := kv
    rw [List.lookup] at h
    rcases hek : (k == a) with _ | _
    · rw [hek] at h
      obtain ⟨p, hp, he⟩ := ih k v h
      exact ⟨p, List.mem_cons_of_mem _ hp, he⟩
    · rw [hek] at h
      injection h with h
      exact ⟨(a, b), List.mem_cons_self _ _, h⟩

/-- Every registry configuration has priority at most 6 and a
nonnegative confidence boost; so does the default configuration. -/
theorem lookupCfg_facts (intent : String) :
    (lookupCfg intent).priority ≤ 6 ∧ 0 ≤ (lookupCfg intent).boost := by
  have hall : ∀ nc ∈ commandPatterns, nc.2.priority ≤ 6 ∧ 0 ≤ nc.2.boost := by
    with_unfolding_all decide
  unfold lookupCfg
  rcases h : commandPatterns.lookup intent with _ | cfg
  · exact ⟨by norm_num, by norm_num⟩
  · obtain ⟨p, hp, he⟩ := lookup_mem_snd commandPatterns intent cfg h
    rw [← he]
    exact hall p hp

/-- Clamped-sum bounds shared by the confidence formula. -/
theorem sumClamp_bounds (base kw clar ctx pb boost : ℚ)
    (h1 : 0.75 ≤ base) (h2 : 0 ≤ kw) (h3 : 0 ≤ clar) (h4 : 0 ≤ ctx)
    (h5 : -(0.02 : ℚ) ≤ pb) (h6 : 0 ≤ boost) :
    0 ≤ min (base + kw + clar + ctx + pb + boost) 0.99 ∧
      min (base + kw + clar + ctx + pb + boost) 0.99 ≤ 0.99 :=
  ⟨le_min (by linarith) (by norm_num), min_le_right _ _⟩

/-- `_calculate_confidence` always lies in [0, 0.99]. -/
theorem calcConfidence_bounds (hist : List ConvEntry) (text : String)
    (intent : String) (pm : Bool) :
    0 ≤ calcConfidence hist text intent pm ∧
      calcConfidence hist text intent pm ≤ 0.99 := by
  obtain ⟨hp6, hb0⟩ := lookupCfg_facts intent
  unfold calcConfidence
  dsimp only
  apply sumClamp_bounds
  · split_ifs <;> norm_num
  · exact le_min (by positivity) (by norm_num)
  · split_ifs <;> norm_num
  · split_ifs
    · rcases hist.getLast? with _ | e <;> dsimp only
      · norm_num
      · split_ifs <;> norm_num
    · norm_num
  · have hc : ((lookupCfg intent).priority : ℚ) ≤ 6 := by exact_mod_cast hp6
    linarith
  · exact hb0

/-- The fuzzy result confidence always lies in [0, 0.99]. -/
theorem fuzzyMatchIntent_snd_bounds (hist : List ConvEntry) (t : String) :
    0 ≤ (fuzzyMatchIntent hist t).2 ∧ (fuzzyMatchIntent hist t).2 ≤ 0.99 := by
  obtain ⟨hb0, hb1⟩ := fuzzyBest_snd_bounds t.data
  unfold fuzzyMatchIntent
  rcases hf : fuzzyBest t.data with ⟨om, bs⟩
  rw [hf] at hb0 hb1
  dsimp only at hb0 hb1
  rcases om with _ | m
  · exact ⟨by norm_num, by norm_num⟩
  · dsimp only
    split_ifs with h6
    · obtain ⟨hc0, hc1⟩ := calcConfidence_bounds hist t m false
      constructor
      · exact mul_nonneg hc0 hb0
      · calc calcConfidence hist t m false * bs
            ≤ calcConfidence hist t m false * 1 := by
              exact mul_le_mul_of_nonneg_left hb1 hc0
          _ = calcConfidence hist t m false := by ring
          _ ≤ 0.99 := hc1
    · exact ⟨by norm_num, by norm_num⟩

/-- A named fuzzy intent is a registry tag; the default is `unknown`. -/
theorem fuzzyMatchIntent_fst (hist : List ConvEntry) (t : String) :
    (fuzzyMatchIntent hist t).1 = "unknown" ∨
      (fuzzyMatchIntent hist t).1 ∈ registryNames := by
  unfold fuzzyMatchIntent
  rcases hf : fuzzyBest t.data with ⟨om, bs⟩
  rcases om with _ | m
  · left; rfl
  · dsimp only
    split_ifs with h6
    · right
      apply fuzzyBest_fst_mem t.data m
      rw [hf]
    · left; rfl

/-- When the fuzzy matcher answers `unknown` its confidence is 0.1. -/
theorem fuzzyMatchIntent_unknown (hist : List ConvEntry) (t : String)
    (h : (fuzzyMatchIntent hist t).1 = "unknown") :
    (fuzzyMatchIntent hist t).2 = 0.1 := by
  revert h
  unfold fuzzyMatchIntent
  rcases hf : fuzzyBest t.data with ⟨om, bs⟩
  rcases om with _ | m
  · intro h; rfl
  · dsimp only
    split_ifs with h6
    · intro h
      dsimp only at h
      have hmem : m ∈ registryNames := by
        apply fuzzyBest_fst_mem t.data m
        rw [hf]
      rw [h] at hmem
      exact absurd hmem (by decide)
    · intro h; rfl

/-- The per-intent pattern confidence lies in [0, 0.99] for nonnegative
boosts. -/
theorem intentConfidence_bounds (t : List Char) (name : String)
    (cfg : IntentConfig) (hb : 0 ≤ cfg.boost) :
    0 ≤ intentConfidence t name cfg ∧ intentConfidence t name cfg ≤ 0.99 := by
  unfold intentConfidence
  dsimp only
  refine ⟨le_min ?_ (by norm_num), min_le_right _ _⟩
  split_ifs <;> linarith

/-- The pattern-stage best confidence lies in [0, 0.99]. -/
theorem patternStage_snd_bounds (t : List Char) :
    0 ≤ (patternStage t).2 ∧ (patternStage t).2 ≤ 0.99 := by
  have hall : ∀ nc ∈ commandPatterns, (0 : ℚ) ≤ nc.2.boost := by
    with_unfolding_all decide
  unfold patternStage
  refine List.foldlRecOn (motive := fun best : Option String × ℚ =>
    0 ≤ best.2 ∧ best.2 ≤ 0.99) _ _ _ (by norm_num) ?_
  intro best hb nc hmem
  unfold patternStep
  split_ifs
  · exact hb
  · dsimp only
    split_ifs
    · dsimp only
      exact intentConfidence_bounds t nc.1 nc.2 (hall nc hmem)
    · exact hb
  · exact hb

/-- Any named best intent of the pattern stage is a registry tag. -/
theorem patternStage_fst_mem (t : List Char) :
    ∀ m, (patternStage t).1 = some m → m ∈ registryNames := by
  have hall : ∀ nc ∈ commandPatterns, nc.1 ∈ registryNames := by decide
  unfold patternStage
  refine List.foldlRecOn (motive := fun best : Option String × ℚ =>
    ∀ m, best.1 = some m → m ∈ registryNames) _ _ _ ?_ ?_
  · intro m h; simp at h
  · intro best hb nc hmem m hm
    unfold patternStep at hm
    dsimp only at hm
    split_ifs at hm
    · exact hb m hm
    · dsimp only at hm
      injection hm with hm1
      rw [← hm1]
      exact hall nc hmem
    · exact hb m hm
    · exact hb m hm

/-- The keyword-fallback result is a registry tag. -/
theorem keywordFallback_mem (t : List Char) (i : String)
    (h : keywordFallback t = some i) : i ∈ registryNames := by
  have hall : ∀ kv ∈ keywordTable, kv.2 ∈ registryNames := by decide
  obtain ⟨kv, hmem, hkv⟩ := List.exists_of_findSome?_eq_some h
  split_ifs at hkv
  injection hkv with hkv
  rw [← hkv]
  exact hall kv hmem

/-- Claim C1: for every input and history, the confidence returned by
`process_command` lies in [0, 0.99], on every path: the inline bidding
confidence, the pattern-stage override confidences, the fuzzy product
confidence, the flat 0.75 keyword fallback and the 0.1 no-match
default. -/
theorem C1_confidence_range (hist : List ConvEntry) (text : String) :
    0 ≤ (processCommand hist text).confidence ∧
      (processCommand hist text).confidence ≤ 0.99 := by
  unfold processCommand
  dsimp only
  rcases hbs : bidScan (normChars text.data) with _ | a
  · rcases hps : patternStage (normChars text.data) with ⟨om, c⟩
    rcases om with _ | m
    · dsimp only
      split_ifs with hf
      · exact fuzzyMatchIntent_snd_bounds hist (String.mk (normChars text.data))
      · rcases keywordFallback (normChars text.data) with _ | i
        · exact ⟨by norm_num, by norm_num⟩
        · exact ⟨by norm_num, by norm_num⟩
    · have hb := patternStage_snd_bounds (normChars text.data)
      rw [hps] at hb
      exact hb
  · unfold bidConfidence
    dsimp only
    split_ifs <;> constructor <;> norm_num

/-- Claim C10: `process_command` answers `unknown` exactly on the
`no_match` path, and every `pattern_match`, `fuzzy_match` or
`keyword_match` result carries one of the six registry intents. -/
theorem C10_unknown_iff_no_match (hist : List ConvEntry) (text : String) :
    ((processCommand hist text).intent = "unknown" ↔
      (processCommand hist text).method = "no_match") ∧
    ((processCommand hist text).method ≠ "no_match" →
      (processCommand hist text).intent ∈ registryNames) := by
  unfold processCommand
  dsimp only
  rcases hbs : bidScan (normChars text.data) with _ | a
  · rcases hps : patternStage (normChars text.data) with ⟨om, c⟩
    rcases om with _ | m
    · dsimp only
      split_ifs with hf
      · have hfst := fuzzyMatchIntent_fst hist (String.mk (normChars text.data))
        rcases hfst with hu | hmem
        · have := fuzzyMatchIntent_unknown hist (String.mk (normChars text.data)) hu
          rw [this] at hf
          norm_num at hf
        · constructor
          · dsimp only
            constructor
            · intro hu
              have := fuzzyMatchIntent_unknown hist (String.mk (normChars text.data)) hu
              rw [this] at hf
              norm_num at hf
            · intro hm
              simp at hm
          · intro _
            exact hmem
      · rcases hkf : keywordFallback (normChars text.data) with _ | i
        · refine ⟨by simp, by simp⟩
        · have hmem := keywordFallback_mem _ i hkf
          have hne : i ≠ "unknown" := by
            intro he
            rw [he] at hmem
            exact absurd hmem (by decide)
          refine ⟨by simp [hne], fun _ => hmem⟩
    · have hmem := patternStage_fst_mem (normChars text.data) m (by rw [hps])
      have hne : m ≠ "unknown" := by
        intro he
        rw [he] at hmem
        exact absurd hmem (by decide)
      refine ⟨by simp [hne], fun _ => hmem⟩
  · refine ⟨by simp, fun _ => ?_⟩
    dsimp only
    decide

/-! ## Idempotence of the Normalizer on correction-free text -/

/-- `containsSub` agrees with list-infix containment. -/
theorem containsSub_iff_isInfix (s sub : List Char) :
    containsSub s sub = true ↔ sub <:+: s := by
  unfold containsSub
  rw [List.any_eq_true]
  constructor
  · rintro ⟨i, -, hp⟩
    rw [List.isPrefixOf_iff_prefix] at hp
    obtain ⟨r, hr⟩ := hp
    refine ⟨s.take i, r, ?_⟩
    rw [List.append_assoc, hr]
    exact List.take_append_drop i s
  · rintro ⟨u, v, huv⟩
    refine ⟨u.length, ?_, ?_⟩
    · rw [List.mem_range]
      have : u.length ≤ s.length := by
        rw [← huv]
        simp
      omega
    · rw [List.isPrefixOf_iff_prefix, ← huv, List.append_assoc, List.drop_left]
      exact ⟨v, rfl⟩

/-- `str.replace` leaves a string with no occurrence of `old` unchanged. -/
theorem replFuel_no_occ (old new : List Char) :
    ∀ (fuel : Nat) (s : List Char), ¬ old <:+: s →
      replFuel fuel s old new = s := by
  intro fuel
  induction fuel with
  | zero => intro s h; rfl
  | succ n ih =>
    intro s h
    cases s with
    | nil => rfl
    | cons c cs =>
      rw [replFuel]
      rw [if_neg]
      · rw [ih cs (fun hin => h (List.infix_cons hin))]
      · rintro ⟨hne, hp⟩
        rw [List.isPrefixOf_iff_prefix] at hp
        exact h hp.isInfix

/-- `applyCorrections` leaves key-free text unchanged. -/
theorem applyCorrections_no_occ :
    ∀ (tbl : List (List Char × List Char)) (s : List Char),
      (∀ kv ∈ tbl, ¬ kv.1 <:+: s) →
      tbl.foldl (fun t kv => pyReplace t kv.1 kv.2) s = s := by
  intro tbl
  induction tbl with
  | nil => intro s _; rfl
  | cons kv rest ih =>
    intro s h
    rw [List.foldl_cons]
    have h1 : pyReplace s kv.1 kv.2 = s :=
      replFuel_no_occ kv.1 kv.2 s.length s (h kv (List.mem_cons_self _ _))
    rw [h1]
    exact ih s (fun p hp => h p (List.mem_cons_of_mem _ hp))

/-- Characters of a replacement result come from the subject or the
replacement string. -/
theorem mem_replFuel (old new : List Char) :
    ∀ (fuel : Nat) (s : List Char) (c : Char),
      c ∈ replFuel fuel s old new → c ∈ s ∨ c ∈ new := by
  intro fuel
  induction fuel with
  | zero => intro s c h; exact Or.inl h
  | succ n ih =>
    intro s c h
    cases s with
    | nil => rw [replFuel] at h; simp at h
    | cons d ds =>
      rw [replFuel] at h
      split_ifs at h with hc
      · rcases List.mem_append.mp h with h1 | h1
        · exact Or.inr h1
        · rcases ih _ c h1 with h2 | h2
          · exact Or.inl (List.drop_subset _ _ h2)
          · exact Or.inr h2
      · rcases List.mem_cons.mp h with h1 | h1
        · exact Or.inl (h1 ▸ List.mem_cons_self _ _)
        · rcases ih _ c h1 with h2 | h2
          · exact Or.inl (List.mem_cons_of_mem _ h2)
          · exact Or.inr h2

/-- Characters of the corrected text come from the original or from a
replacement value of the table. -/
theorem mem_applyCorrections :
    ∀ (tbl : List (List Char × List Char)) (s : List Char) (c : Char),
      c ∈ tbl.foldl (fun t kv => pyReplace t kv.1 kv.2) s →
      c ∈ s ∨ ∃ kv ∈ tbl, c ∈ kv.2 := by
  intro tbl
  induction tbl with
  | nil => intro s c h; exact Or.inl h
  | cons kv rest ih =>
    intro s c h
    rw [List.foldl_cons] at h
    rcases ih _ c h with h1 | ⟨p, hp, hc⟩
    · rcases mem_replFuel kv.1 kv.2 s.length s c h1 with h2 | h2
      · exact Or.inl h2
      · exact Or.inr ⟨kv, List.mem_cons_self _ _, h2⟩
    · exact Or.inr ⟨p, List.mem_cons_of_mem _ hp, hc⟩

/-- Characters of split words come from the text or the accumulator. -/
theorem mem_splitWsAux :
    ∀ (l acc : List Char) (w : List Char), w ∈ splitWsAux l acc →
      ∀ c ∈ w, c ∈ l ∨ c ∈ acc := by
  intro l
  induction l with
  | nil =>
    intro acc w hw c hc
    rw [splitWsAux] at hw
    split_ifs at hw
    · simp at hw
    · simp at hw
      subst hw
      exact Or.inr ((List.mem_reverse).mp hc)
  | cons d ds ih =>
    intro acc w hw c hc
    rw [splitWsAux] at hw
    split_ifs at hw with h1 h2
    · rcases ih [] w hw c hc with h | h
      · exact Or.inl (List.mem_cons_of_mem _ h)
      · simp at h
    · rcases List.mem_cons.mp hw with h | h
      · subst h
        exact Or.inr ((List.mem_reverse).mp hc)
      · rcases ih [] w h c hc with h3 | h3
        · exact Or.inl (List.mem_cons_of_mem _ h3)
        · simp at h3
    · rcases ih (d :: acc) w hw c hc with h | h
      · exact Or.inl (List.mem_cons_of_mem _ h)
      · rcases List.mem_cons.mp h with h4 | h4
        · exact Or.inl (h4 ▸ List.mem_cons_self _ _)
        · exact Or.inr h4

/-- Split words are nonempty and free of whitespace. -/
theorem splitWsAux_good :
    ∀ (l acc : List Char), (∀ c ∈ acc, isWS c = false) →
      ∀ w ∈ splitWsAux l acc, w ≠ [] ∧ ∀ c ∈ w, isWS c = false := by
  intro l
  induction l with
  | nil =>
    intro acc hacc w hw
    rw [splitWsAux] at hw
    split_ifs at hw with h
    · simp at hw
    · simp at hw
      subst hw
      refine ⟨by simpa using h, fun c hc => hacc c ((List.mem_reverse).mp hc)⟩
  | cons d ds ih =>
    intro acc hacc w hw
    rw [splitWsAux] at hw
    split_ifs at hw with h1 h2
    · exact ih [] (by simp) w hw
    · rcases List.mem_cons.mp hw with h | h
      · subst h
        refine ⟨by simpa using h2, fun c hc => hacc c ((List.mem_reverse).mp hc)⟩
      · exact ih [] (by simp) w h
    · refine ih (d :: acc) ?_ w hw
      intro c hc
      rcases List.mem_cons.mp hc with h | h
      · subst h
        simpa using h1
      · exact hacc c h

/-- Splitting with a nonempty accumulator yields at least one word. -/
theorem splitWsAux_ne_nil :
    ∀ (l acc : List Char), acc ≠ [] → splitWsAux l acc ≠ [] := by
  intro l
  induction l with
  | nil =>
    intro acc h
    rw [splitWsAux, if_neg h]
    simp
  | cons d ds ih =>
    intro acc h
    rw [splitWsAux]
    by_cases h1 : isWS d = true
    · rw [if_pos h1, if_neg h]
      simp
    · rw [if_neg h1]
      exact ih (d :: acc) (by simp)

/-- Joining a word onto a nonempty tail inserts one separating space. -/
theorem joinWords_cons_ne (w : List Char) (ws : List (List Char)) (h : ws ≠ []) :
    joinWords (w :: ws) = w ++ ' ' :: joinWords ws := by
  cases ws with
  | nil => exact absurd rfl h
  | cons x xs => rw [joinWords]

/-- Rejoining the split of canonical text restores it, relative to an
accumulated word prefix. -/
theorem joinWords_splitWsAux :
    ∀ (l acc : List Char), wsSpaceOnly l → noDouble l →
      l.getLast? ≠ some ' ' → (acc = [] → l.head? ≠ some ' ') →
      joinWords (splitWsAux l acc) = acc.reverse ++ l := by
  intro l
  induction l with
  | nil =>
    intro acc _ _ _ _
    rw [splitWsAux]
    split_ifs with h
    · subst h; rfl
    · rw [joinWords]
      simp
  | cons d ds ih =>
    intro acc hws hnd hlast hstart
    have hws_tail : wsSpaceOnly ds := fun c hc hw => hws c (List.mem_cons_of_mem _ hc) hw
    have hnd_tail : noDouble ds := fun hin => hnd (List.infix_cons hin)
    have hlast_tail : ds.getLast? ≠ some ' ' := by
      cases ds with
      | nil => simp
      | cons e es =>
        rw [List.getLast?_cons_cons] at hlast
        exact hlast
    rw [splitWsAux]
    split_ifs with h1 h2
    · exfalso
      apply hstart h2
      have hd : d = ' ' := hws d (List.mem_cons_self _ _) h1
      rw [hd]
      rfl
    · have hd : d = ' ' := hws d (List.mem_cons_self _ _) h1
      subst hd
      have hds_ne : ds ≠ [] := by
        intro he
        subst he
        exact hlast rfl
      have hhead : ds.head? ≠ some ' ' := by
        intro hh
        apply hnd
        cases ds with
        | nil => simp at hh
        | cons e es =>
          simp at hh
          subst hh
          exact ⟨[], es, rfl⟩
      have hsplit_ne : splitWsAux ds [] ≠ [] := by
        cases ds with
        | nil => exact absurd rfl hds_ne
        | cons e es =>
          have he : isWS e = false := by
            rcases hb : isWS e with _ | _
            · rfl
            · exfalso
              apply hhead
              rw [hws_tail e (List.mem_cons_self _ _) hb]
              rfl
          rw [splitWsAux, if_neg (by simp [he])]
          exact splitWsAux_ne_nil es [e] (by simp)
      rw [joinWords_cons_ne _ _ hsplit_ne]
      rw [ih [] hws_tail hnd_tail hlast_tail (fun _ => hhead)]
      simp
    · have hgoal := ih (d :: acc) hws_tail hnd_tail hlast_tail (by simp)
      rw [hgoal]
      simp

/-- Rejoining the split of canonical text restores it. -/
theorem joinWords_splitWs_of_canon (l : List Char) (h : CanonTxt l) :
    joinWords (splitWsL l) = l := by
  obtain ⟨h1, h2, h3, h4⟩ := h
  have := joinWords_splitWsAux l [] h1 h2 h4 (fun _ => h3)
  simpa using this

/-- Characters of the whitespace-collapsed text: originals that are not
whitespace, or plain spaces. -/
theorem mem_subWsAux :
    ∀ (l : List Char) (b : Bool) (c : Char), c ∈ subWsAux b l →
      (c ∈ l ∧ isWS c = false) ∨ c = ' ' := by
  intro l
  induction l with
  | nil => intro b c h; rw [subWsAux] at h; simp at h
  | cons d ds ih =>
    intro b c h
    rw [subWsAux] at h
    split_ifs at h with h1 h2
    · rcases ih true c h with ⟨h3, h4⟩ | h3
      · exact Or.inl ⟨List.mem_cons_of_mem _ h3, h4⟩
      · exact Or.inr h3
    · rcases List.mem_cons.mp h with h3 | h3
      · exact Or.inr h3
      · rcases ih true c h3 with ⟨h4, h5⟩ | h4
        · exact Or.inl ⟨List.mem_cons_of_mem _ h4, h5⟩
        · exact Or.inr h4
    · rcases List.mem_cons.mp h with h3 | h3
      · subst h3
        exact Or.inl ⟨List.mem_cons_self _ _, by simpa using h1⟩
      · rcases ih false c h3 with ⟨h4, h5⟩ | h4
        · exact Or.inl ⟨List.mem_cons_of_mem _ h4, h5⟩
        · exact Or.inr h4

/-- Adding a head to a double-space-free list whose head pair is not two
spaces keeps it double-space free. -/
theorem noDouble_cons {c : Char} {l : List Char} (h : noDouble l)
    (hh : c ≠ ' ' ∨ l.head? ≠ some ' ') : noDouble (c :: l) := by
  intro hin
  rcases List.infix_cons_iff.mp hin with hp | hi
  · rw [List.cons_prefix_cons] at hp
    obtain ⟨he, hp2⟩ := hp
    rcases hh with hc | hc
    · exact hc he.symm
    · apply hc
      cases l with
      | nil => simp at hp2
      | cons e es =>
        rw [List.cons_prefix_cons] at hp2
        rw [hp2.1]
        rfl
  · exact h hi

/-- The whitespace-collapsed text has no two adjacent spaces, and starts
with a non-space after a run was just collapsed. -/
theorem subWsAux_noDouble :
    ∀ (l : List Char) (b : Bool), noDouble (subWsAux b l) ∧
      (b = true → (subWsAux b l).head? ≠ some ' ') := by
  intro l
  induction l with
  | nil =>
    intro b
    rw [subWsAux]
    refine ⟨fun hin => ?_, fun _ => by simp⟩
    have := hin.length_le
    simp at this
  | cons d ds ih =>
    intro b
    rw [subWsAux]
    split_ifs with h1 h2
    · subst h2
      exact ih true
    · obtain ⟨hnd, hhd⟩ := ih true
      exact ⟨noDouble_cons hnd (Or.inr (hhd rfl)), fun hb => absurd hb h2⟩
    · obtain ⟨hnd, -⟩ := ih false
      have hdne : d ≠ ' ' := by
        intro he
        rw [he] at h1
        simp [isWS] at h1
      refine ⟨noDouble_cons hnd (Or.inl hdne), fun _ => by simpa using hdne⟩

/-- Collapsing whitespace in already-canonical text changes nothing. -/
theorem subWsAux_id :
    ∀ (l : List Char) (b : Bool), wsSpaceOnly l → noDouble l →
      (b = true → l.head? ≠ some ' ') → subWsAux b l = l := by
  intro l
  induction l with
  | nil => intro b _ _ _; rw [subWsAux]
  | cons d ds ih =>
    intro b hws hnd hh
    have hws_tail : wsSpaceOnly ds := fun c hc hw => hws c (List.mem_cons_of_mem _ hc) hw
    have hnd_tail : noDouble ds := fun hin => hnd (List.infix_cons hin)
    rw [subWsAux]
    split_ifs with h1 h2
    · exfalso
      apply hh h2
      rw [hws d (List.mem_cons_self _ _) h1]
      rfl
    · have hd : d = ' ' := hws d (List.mem_cons_self _ _) h1
      subst hd
      rw [ih true hws_tail hnd_tail]
      intro _ hhd
      apply hnd
      cases ds with
      | nil => simp at hhd
      | cons e es =>
        simp at hhd
        subst hhd
        exact ⟨[], es, rfl⟩
    · rw [ih false hws_tail hnd_tail (by simp)]

/-- Strip characters come from the original list. -/
theorem mem_stripL (l : List Char) (c : Char) (h : c ∈ stripL l) : c ∈ l := by
  unfold stripL at h
  rw [List.mem_reverse] at h
  have h2 := (List.dropWhile_suffix isWS).subset h
  rw [List.mem_reverse] at h2
  exact (List.dropWhile_suffix isWS).subset h2

/-- The head of a whitespace-stripped list is not whitespace. -/
theorem head_dropWhile_not :
    ∀ (l : List Char) (c : Char), (l.dropWhile isWS).head? = some c →
      isWS c = false := by
  intro l
  induction l with
  | nil => intro c h; simp at h
  | cons d ds ih =>
    intro c h
    rw [List.dropWhile_cons] at h
    split_ifs at h with h1
    · exact ih c h
    · simp at h
      subst h
      simpa using h1

/-- A nonempty suffix shares its last element with the whole list. -/
theorem getLast?_of_suffix {l₁ l₂ : List Char} (h : l₁ <:+ l₂) (hne : l₁ ≠ []) :
    l₁.getLast? = l₂.getLast? := by
  obtain ⟨w, hw⟩ := h
  rw [← hw, List.getLast?_append]
  cases hl : l₁.getLast? with
  | none => exact absurd (List.getLast?_eq_none_iff.mp hl) hne
  | some x => rfl

/-- Stripping whitespace leaves no whitespace at the front. -/
theorem stripL_head (l : List Char) (c : Char) (h : (stripL l).head? = some c) :
    isWS c = false := by
  unfold stripL at h
  rw [List.head?_reverse] at h
  have hne : (l.dropWhile isWS).reverse.dropWhile isWS ≠ [] := by
    intro he
    rw [he] at h
    simp at h
  rw [getLast?_of_suffix (List.dropWhile_suffix isWS) hne,
    List.getLast?_reverse] at h
  exact head_dropWhile_not l c h

/-- Stripping whitespace leaves no whitespace at the back. -/
theorem stripL_last (l : List Char) (c : Char) (h : (stripL l).getLast? = some c) :
    isWS c = false := by
  unfold stripL at h
  rw [List.getLast?_reverse] at h
  exact head_dropWhile_not _ c h

/-- Stripping text with no whitespace at either end changes nothing. -/
theorem stripL_id (l : List Char)
    (h1 : ∀ c, l.head? = some c → isWS c = false)
    (h2 : ∀ c, l.getLast? = some c → isWS c = false) : stripL l = l := by
  unfold stripL
  have e1 : l.dropWhile isWS = l := by
    cases l with
    | nil => rfl
    | cons d ds =>
      rw [List.dropWhile_cons, if_neg]
      simp [h1 d rfl]
  rw [e1]
  have e2 : l.reverse.dropWhile isWS = l.reverse := by
    cases hl : l.reverse with
    | nil => rfl
    | cons d ds =>
      rw [List.dropWhile_cons, if_neg]
      have : l.getLast? = some d := by
        rw [← List.head?_reverse, hl]
        rfl
      simp [h2 d this]
  rw [e2, List.reverse_reverse]

/-- Lower-casing never produces an upper-case ASCII letter. -/
theorem lowerA_not_upper (c : Char) : isUpperA (lowerA c) = false := by
  unfold lowerA
  split_ifs with h
  · unfold isUpperA at *
    simp only [decide_eq_true_eq] at h
    have hv : (c.toNat + 32).isValidChar := by
      left
      omega
    have he : (Char.ofNat (c.toNat + 32)).toNat = c.toNat + 32 := by
      unfold Char.ofNat
      rw [dif_pos hv]
      rfl
    simp only [decide_eq_false_iff_not, not_and]
    intro h1
    omega
  · unfold isUpperA at *
    simpa using h

/-- Characters of joined words come from some word, or are the space. -/
theorem mem_joinWords :
    ∀ (ws : List (List Char)) (c : Char), c ∈ joinWords ws →
      (∃ w ∈ ws, c ∈ w) ∨ c = ' ' := by
  intro ws
  induction ws with
  | nil => intro c h; rw [joinWords] at h; simp at h
  | cons w rest ih =>
    intro c h
    cases rest with
    | nil =>
      rw [joinWords] at h
      exact Or.inl ⟨w, List.mem_cons_self _ _, h⟩
    | cons x xs =>
      rw [joinWords] at h
      rcases List.mem_append.mp h with h1 | h1
      · exact Or.inl ⟨w, List.mem_cons_self _ _, h1⟩
      · rcases List.mem_cons.mp h1 with h2 | h2
        · exact Or.inr h2
        · rcases ih c h2 with ⟨v, hv, hc⟩ | h3
          · exact Or.inl ⟨v, List.mem_cons_of_mem _ hv, hc⟩
          · exact Or.inr h3

/-- Characters of the cleanup output all pass the kept-character test. -/
theorem mem_cleanupChars_kept (l : List Char) (c : Char)
    (h : c ∈ cleanupChars l) : keptC c = true := by
  unfold cleanupChars at h
  rw [List.mem_map] at h
  obtain ⟨d, -, hd⟩ := h
  rw [← hd]
  split_ifs with h1
  · exact h1
  · decide

/-- Characters of the cleanup output come from the original or are the
space. -/
theorem mem_cleanupChars (l : List Char) (c : Char)
    (h : c ∈ cleanupChars l) : c ∈ l ∨ c = ' ' := by
  unfold cleanupChars at h
  rw [List.mem_map] at h
  obtain ⟨d, hdm, hd⟩ := h
  rw [← hd]
  split_ifs
  · exact Or.inl hdm
  · exact Or.inr rfl

/-- Lower-casing text with no upper-case characters changes nothing. -/
theorem lowerL_id (l : List Char) (h : ∀ c ∈ l, isUpperA c = false) :
    lowerL l = l := by
  unfold lowerL
  rw [List.map_congr_left (g := id), List.map_id]
  intro c hc
  unfold lowerA
  rw [if_neg (by simp [h c hc])]
  rfl

/-- Cleaning text whose characters are all kept changes nothing. -/
theorem cleanupChars_id (l : List Char) (h : ∀ c ∈ l, keptC c = true) :
    cleanupChars l = l := by
  unfold cleanupChars
  rw [List.map_congr_left (g := id), List.map_id]
  intro c hc
  rw [if_pos (h c hc)]
  rfl

/-- Removing fillers from canonical text with no filler words changes
nothing. -/
theorem removeFillers_id (l : List Char) (hc : CanonTxt l)
    (hf : ∀ w ∈ splitWsL l, w ∉ fillerWords) : removeFillers l = l := by
  unfold removeFillers
  have he : (splitWsL l).filter (fun w => ¬ fillerWords.contains w) = splitWsL l := by
    rw [List.filter_eq_self]
    intro w hw
    simp only [decide_eq_true_eq]
    intro hcon
    exact hf w hw (List.mem_of_elem_eq_true hcon)
  rw [he]
  exact joinWords_splitWs_of_canon l hc

/-- Double-space freedom restricts to infixes. -/
theorem noDouble_of_isInfix {l₁ l₂ : List Char} (hinf : l₁ <:+: l₂)
    (h : noDouble l₂) : noDouble l₁ := fun hin => h (hin.trans hinf)

/-- Double-space freedom survives reversal. -/
theorem noDouble_reverse {l : List Char} (h : noDouble l) :
    noDouble l.reverse := by
  intro hin
  apply h
  have h2 : [' ', ' '].reverse <:+: l.reverse := hin
  exact (List.reverse_infix).mp h2

/-- Double-space freedom survives stripping. -/
theorem noDouble_stripL {l : List Char} (h : noDouble l) :
    noDouble (stripL l) := by
  unfold stripL
  exact noDouble_reverse (noDouble_of_isInfix (List.dropWhile_suffix isWS).isInfix
    (noDouble_reverse (noDouble_of_isInfix (List.dropWhile_suffix isWS).isInfix h)))

/-- A stripped list never starts with a space. -/
theorem stripL_head_ne_space (l : List Char) : (stripL l).head? ≠ some ' ' := by
  intro h
  have := stripL_head l ' ' h
  simp [isWS] at this

/-- A stripped list never ends with a space. -/
theorem stripL_last_ne_space (l : List Char) : (stripL l).getLast? ≠ some ' ' := by
  intro h
  have := stripL_last l ' ' h
  simp [isWS] at this

/-- The whitespace-collapsing final step always emits canonical text. -/
theorem collapseWs_canon (u : List Char) : CanonTxt (collapseWs u) := by
  refine ⟨?_, ?_, ?_, ?_⟩
  · intro c hc hw
    have h1 := mem_stripL _ c hc
    rcases mem_subWsAux u false c h1 with ⟨-, h2⟩ | h2
    · rw [hw] at h2
      cases h2
    · exact h2
  · exact noDouble_stripL (subWsAux_noDouble u false).1
  · exact stripL_head_ne_space _
  · exact stripL_last_ne_space _

/-- Preprocessed text is canonical. -/
theorem normChars_canon (l : List Char) : CanonTxt (normChars l) := by
  unfold normChars
  exact collapseWs_canon _

/-- Every character of preprocessed text passes the kept test. -/
theorem normChars_kept (l : List Char) : ∀ c ∈ normChars l, keptC c = true := by
  intro c hc
  unfold normChars collapseWs at hc
  have h1 := mem_stripL _ c hc
  rcases mem_subWsAux _ false c h1 with ⟨h2, -⟩ | h2
  · exact mem_cleanupChars_kept _ c h2
  · rw [h2]
    decide

/-- Preprocessed text has no upper-case ASCII characters. -/
theorem normChars_not_upper (l : List Char) :
    ∀ c ∈ normChars l, isUpperA c = false := by
  intro c hc
  unfold normChars collapseWs at hc
  have h1 := mem_stripL _ c hc
  rcases mem_subWsAux _ false c h1 with ⟨h2, -⟩ | h2
  case inr => rw [h2]; decide
  rcases mem_cleanupChars _ c h2 with h3 | h3
  case inr => rw [h3]; decide
  unfold removeFillers at h3
  rcases mem_joinWords _ c h3 with ⟨w, hw, hcw⟩ | h4
  case inr => rw [h4]; decide
  have hw2 : w ∈ splitWsL (applyCorrections (stripL (lowerL l))) :=
    List.mem_of_mem_filter hw
  unfold splitWsL at hw2
  rcases mem_splitWsAux _ [] w hw2 c hcw with h5 | h5
  case inr => simp at h5
  unfold applyCorrections at h5
  rcases mem_applyCorrections correctionTable _ c h5 with h6 | ⟨kv, hkv, hc2⟩
  · have h7 := mem_stripL _ c h6
    unfold lowerL at h7
    rw [List.mem_map] at h7
    obtain ⟨d, -, hd⟩ := h7
    rw [← hd]
    exact lowerA_not_upper d
  · have hvals : ∀ kv ∈ correctionTable, ∀ c ∈ kv.2, isUpperA c = false := by decide
    exact hvals kv hkv c hc2

/-- Preprocessing is the identity on canonical, kept, lower-case text
that contains no correction key and no filler word. -/
theorem normChars_idem_aux (n : List Char)
    (hkept : ∀ c ∈ n, keptC c = true)
    (hnup : ∀ c ∈ n, isUpperA c = false)
    (hcanon : CanonTxt n)
    (hkeys : ∀ kv ∈ correctionTable, ¬ kv.1 <:+: n)
    (hfill : ∀ w ∈ splitWsL n, w ∉ fillerWords) :
    normChars n = n := by
  obtain ⟨hws, hnd, hh, hl⟩ := hcanon
  have hhead : ∀ c, n.head? = some c → isWS c = false := by
    intro c hc
    rcases hb : isWS c with _ | _
    · rfl
    · exfalso
      have hcm : c ∈ n := List.mem_of_mem_head? hc
      have he : c = ' ' := hws c hcm hb
      rw [he] at hc
      exact hh hc
  have hlast : ∀ c, n.getLast? = some c → isWS c = false := by
    intro c hc
    rcases hb : isWS c with _ | _
    · rfl
    · exfalso
      have hcm : c ∈ n := List.mem_of_mem_getLast? hc
      have he : c = ' ' := hws c hcm hb
      rw [he] at hc
      exact hl hc
  unfold normChars
  rw [lowerL_id n hnup]
  rw [stripL_id n hhead hlast]
  have hac : applyCorrections n = n := applyCorrections_no_occ correctionTable n hkeys
  rw [hac]
  rw [removeFillers_id n ⟨hws, hnd, hh, hl⟩ hfill]
  rw [cleanupChars_id n hkept]
  unfold collapseWs
  rw [subWsAux_id n false hws hnd (by simp)]
  exact stripL_id n hhead hlast

/-- The characters of a built string. -/
theorem data_mk (l : List Char) : (String.mk l).data = l := rfl

/-- Claim C2, counterexample: normalization is not idempotent; on the
input `dollar` the first pass yields `dollars` and the second pass
re-fires the `dollar` to `dollars` correction, yielding `dollarss`. -/
theorem C2_normalize_not_idempotent :
    preprocessText (preprocessText "dollar") ≠ preprocessText "dollar" := by
  decide

/-- Claim C2 as amended: normalization is idempotent on every input
whose normalized form contains no correction-table key as a substring
and no filler word as a whitespace token; on such text the second pass
is the identity. -/
theorem C2_normalize_idem_amended (x : String)
    (hkeys : ∀ kv ∈ correctionTable,
      containsSub (preprocessText x).data kv.1 = false)
    (hfill : ∀ w ∈ splitWsL (preprocessText x).data, w ∉ fillerWords) :
    preprocessText (preprocessText x) = preprocessText x := by
  simp only [preprocessText, data_mk] at hkeys hfill
  have hkeys2 : ∀ kv ∈ correctionTable, ¬ kv.1 <:+: normChars x.data := by
    intro kv hkv hin
    have h2 := (containsSub_iff_isInfix (normChars x.data) kv.1).mpr hin
    have h3 := hkeys kv hkv
    rw [h2] at h3
    cases h3
  have hdata : normChars (normChars x.data) = normChars x.data :=
    normChars_idem_aux (normChars x.data) (normChars_kept x.data)
      (normChars_not_upper x.data) (normChars_canon x.data) hkeys2 hfill
  simp only [preprocessText, data_mk]
  rw [hdata]

/-- Witness for the amended C2 at the concrete input `help me`. -/
theorem C2_normalize_idem_witness :
    ((∀ kv ∈ correctionTable,
        containsSub (preprocessText "help me").data kv.1 = false) ∧
      ∀ w ∈ splitWsL (preprocessText "help me").data, w ∉ fillerWords) ∧
    preprocessText (preprocessText "help me") = preprocessText "help me" :=
  ⟨⟨by decide, by decide⟩,
   C2_normalize_idem_amended "help me" (by decide) (by decide)⟩
